import Mathlib

/-!
Shallow embedding of `src/utils.py` (recipe-scrapper): the duration
normalizer `parse_time_to_minutes`, the servings normalizer
`parse_servings_to_int`, and the URL classifier `get_platform`.

Python strings are modelled as `List Char`; Python ints/floats are modelled
exactly as rationals (`Rat`), so `float(x)` is the identity and Python's
banker's `round` becomes `roundHalfEven` below.  Character classes of the
regular expressions (`\d`, `\s`, `\w`) and `str.strip`/`str.lower`/
`str.isdigit` are modelled by their ASCII behaviour.  Each regular
expression of the source is hand-compiled to a deterministic matcher; the
determinism is justified in comments where the Python engine could
backtrack.
-/

set_option maxRecDepth 8000
set_option maxHeartbeats 1000000

/-- Addition of rationals, written via `mkRat` so that it reduces inside
the kernel (the library's `Rat.add` is irreducible); proved equal to `+`
in `qadd_eq` below. -/
def qadd (a b : Rat) : Rat := mkRat (a.num * b.den + b.num * a.den) (a.den * b.den)

/-- Multiplication of a rational by a natural constant, kernel-reducible;
proved equal to `a * n` in `qmulN_eq` below. -/
def qmulN (a : Rat) (n : Nat) : Rat := mkRat (a.num * n) a.den

/-- Division of a rational by a natural constant, kernel-reducible; proved
equal to `a / n` in `qdivN_eq` below. -/
def qdivN (a : Rat) (n : Nat) : Rat := mkRat a.num (a.den * n)

/-- ASCII decimal digit, the `\d` class and the (ASCII part of the)
`str.isdigit` test. -/
def isDigitCh (c : Char) : Bool := 48 ≤ c.toNat && c.toNat ≤ 57

/-- ASCII whitespace, the `\s` class and the (ASCII part of) `str.strip`. -/
def isSpaceCh (c : Char) : Bool :=
  c.toNat = 32 || (9 ≤ c.toNat && c.toNat ≤ 13)

/-- ASCII letter. -/
def isAlphaCh (c : Char) : Bool :=
  (65 ≤ c.toNat && c.toNat ≤ 90) || (97 ≤ c.toNat && c.toNat ≤ 122)

/-- The `\w` word class (ASCII part), used for the `\b` boundary assertion. -/
def isWordCh (c : Char) : Bool := isDigitCh c || isAlphaCh c || c.toNat = 95

/-- ASCII lower-casing of one character, modelling `str.lower`. -/
def lowerCh (c : Char) : Char :=
  if 65 ≤ c.toNat && c.toNat ≤ 90 then Char.ofNat (c.toNat + 32) else c

/-- Model of `str.lower` (ASCII). -/
def asciiLower (l : List Char) : List Char := l.map lowerCh

/-- Model of `str.strip` (ASCII whitespace from both ends). -/
def pyStrip (l : List Char) : List Char :=
  ((l.dropWhile isSpaceCh).reverse.dropWhile isSpaceCh).reverse

/-- Model of `str.isdigit` (on ASCII text): nonempty and all digits. -/
def pyIsdigit (l : List Char) : Bool := !l.isEmpty && l.all isDigitCh

/-- Numeric value of one digit character. -/
def digVal (c : Char) : Nat := c.toNat - 48

/-- Maximal digit run at the front of the list, and the rest. -/
def takeDigits : List Char → List Char × List Char
  | [] => ([], [])
  | c :: rest =>
    if isDigitCh c then
      let p := takeDigits rest
      (c :: p.1, p.2)
    else ([], c :: rest)

/-- Value of a digit string read in base 10, with accumulator
(`int(s)` on a digit string). -/
def digitsValA (a : Nat) (l : List Char) : Nat :=
  l.foldl (fun x c => 10 * x + digVal c) a

/-- Value of a digit string read in base 10. -/
def digitsVal (l : List Char) : Nat := digitsValA 0 l

/-- The number token `\d+(?:\.\d+)?` of the source's regexes, matched
greedily at the head of the list; returns its rational value and the rest.
Greediness is exact here: in every context the source uses this token, the
character after it can never be a digit or a dot-then-digit, so the Python
engine never has to give digits back. -/
def numToken (l : List Char) : Option (Rat × List Char) :=
  let p := takeDigits l
  if p.1.isEmpty then none
  else if p.2.head? = some '.' then
    let q := takeDigits p.2.tail
    if q.1.isEmpty then some (mkRat (digitsVal p.1) 1, p.2)
    else some (mkRat (digitsVal p.1 * 10 ^ q.1.length + digitsVal q.1) (10 ^ q.1.length), q.2)
  else some (mkRat (digitsVal p.1) 1, p.2)

/-- Skip `\s*` (greedy; exact because no continuation in the source's
patterns can start with whitespace). -/
def skipWs (l : List Char) : List Char := l.dropWhile isSpaceCh

/-- Boundary test `\b` placed after a word character: succeeds at the end
of input or before a non-word character. -/
def boundaryOk : List Char → Bool
  | [] => true
  | c :: _ => !isWordCh c

/-- Is `w` a prefix of `l`? -/
def pfx : List Char → List Char → Bool
  | [], _ => true
  | _ :: _, [] => false
  | a :: x, b :: y => a = b && pfx x y

/-- Match one of the unit-word alternatives followed by `\b`, trying the
alternatives in the order the Python engine does. -/
def matchWord : List (List Char) → List Char → Option (List Char)
  | [], _ => none
  | w :: ws, l =>
    if pfx w l && boundaryOk (l.drop w.length) then some (l.drop w.length)
    else matchWord ws l

/-- Matcher for `(\d+(?:\.\d+)?)\s*(?:ALT)\b` (`allowWs = true`) and for the
compact `(\d+(?:\.\d+)?)Xb` forms (`allowWs = false`), at the head of the
list.  Returns the captured value and the rest of the string. -/
def unitMatchAt (allowWs : Bool) (words : List (List Char)) (l : List Char) :
    Option (Rat × List Char) :=
  match numToken l with
  | none => none
  | some (v, r1) =>
    let r2 := if allowWs then skipWs r1 else r1
    match matchWord words r2 with
    | none => none
    | some r => some (v, r)

/-- Matcher for the compact pattern `(\d+(?:\.\d+)?)h\s*(\d+(?:\.\d+)?)m`
(note: no `\b`); the value is already hours*60+minutes. -/
def hmMatchAt (l : List Char) : Option (Rat × List Char) :=
  match numToken l with
  | none => none
  | some (v1, r1) =>
    if r1.head? = some 'h' then
      match numToken (skipWs r1.tail) with
      | none => none
      | some (v2, r3) =>
        if r3.head? = some 'm' then some (qadd (qmulN v1 60) v2, r3.tail)
        else none
    else none

/-- Fuel-driven core of `re.finditer` summation: scan left to right, sum
the captured values of non-overlapping matches, advancing one character
where the pattern does not match.  Matches are never empty (they start with
`\d+`), so fuel `l.length` always suffices. -/
def scanAux (f : List Char → Option (Rat × List Char)) : Nat → List Char → Rat
  | _, [] => 0
  | 0, _ :: _ => 0
  | n + 1, c :: rest =>
    match f (c :: rest) with
    | some (v, r) => qadd v (scanAux f n r)
    | none => scanAux f n rest

/-- Sum of the captured values over all non-overlapping matches of `f` in
`l` (the `for m in pattern.finditer(s)` accumulation of the source). -/
def scanF (f : List Char → Option (Rat × List Char)) (l : List Char) : Rat :=
  scanAux f l.length l

/-- The hour unit words `hours?|hrs?|hr|h`, in engine order. -/
def hourWords : List (List Char) :=
  [['h', 'o', 'u', 'r', 's'], ['h', 'o', 'u', 'r'], ['h', 'r', 's'], ['h', 'r'], ['h']]

/-- The minute unit words `minutes?|mins?|min|m`, in engine order. -/
def minuteWords : List (List Char) :=
  [['m', 'i', 'n', 'u', 't', 'e', 's'], ['m', 'i', 'n', 'u', 't', 'e'],
   ['m', 'i', 'n', 's'], ['m', 'i', 'n'], ['m']]

/-- The second unit words `seconds?|secs?|sec|s`, in engine order. -/
def secondWords : List (List Char) :=
  [['s', 'e', 'c', 'o', 'n', 'd', 's'], ['s', 'e', 'c', 'o', 'n', 'd'],
   ['s', 'e', 'c', 's'], ['s', 'e', 'c'], ['s']]

/-- `hour_pattern` matcher of the source. -/
def hourM : List Char → Option (Rat × List Char) := unitMatchAt true hourWords

/-- `minute_pattern` matcher of the source. -/
def minuteM : List Char → Option (Rat × List Char) := unitMatchAt true minuteWords

/-- `second_pattern` matcher of the source. -/
def secondM : List Char → Option (Rat × List Char) := unitMatchAt true secondWords

/-- Compact `(\d+(?:\.\d+)?)h\b` matcher of the source. -/
def chM : List Char → Option (Rat × List Char) := unitMatchAt false [['h']]

/-- Compact `(\d+(?:\.\d+)?)m\b` matcher of the source. -/
def cmM : List Char → Option (Rat × List Char) := unitMatchAt false [['m']]

/-- The unit-word accumulation stage of `parse_time_to_minutes` (lines
40-48 of `src/utils.py`): hours*60 + minutes + seconds/60, summed over all
matches of the three patterns. -/
def unitStage (l : List Char) : Rat :=
  qadd (qadd (qmulN (scanF hourM l) 60) (scanF minuteM l)) (qdivN (scanF secondM l) 60)

/-- The compact no-space stage's three `findall` accumulations (lines 50-58
of the source): all three loops run and add to the same total. -/
def compactStage (l : List Char) : Rat :=
  qadd (qadd (scanF hmMatchAt l) (qmulN (scanF chM l) 60)) (scanF cmM l)

/-- Running total after the compact stage: the compact loops only run when
the unit-word total is exactly `0.0` (line 49 of the source). -/
def afterCompact (l : List Char) : Rat :=
  let u := unitStage l
  if u = 0 then qadd u (compactStage l) else u

/-- `re.search(r"(\d+(?:\.\d+)?)", s)`: value of the first number anywhere
in the string. -/
def firstNumber : List Char → Option Rat
  | [] => none
  | c :: rest =>
    match numToken (c :: rest) with
    | some (v, _) => some v
    | none => firstNumber rest

/-- Running total after the bare-number fallback (lines 59-62 of the
source): only applied when the total is still `0.0`. -/
def afterBare (l : List Char) : Rat :=
  let t := afterCompact l
  if t = 0 then
    match firstNumber l with
    | some v => v
    | none => 0
  else t

/-- Split a string at every colon (used to model the anchored
`re.fullmatch(r"\d+:\d{1,2}(?::\d{1,2})?", s)`). -/
def splitColon : List Char → List (List Char)
  | [] => [[]]
  | c :: rest =>
    if c = ':' then [] :: splitColon rest
    else
      match splitColon rest with
      | part :: parts => (c :: part) :: parts
      | [] => [[c]]

/-- Is `l` a digit run of length between 1 and 2 (`\d{1,2}`)? -/
def isD12 (l : List Char) : Bool :=
  decide (l.length = 1 ∨ l.length = 2) && l.all isDigitCh

/-- The colon-clock grammar (lines 19-27 of the source): a full-string
match of `\d+:\d{1,2}(?::\d{1,2})?` yields hours*60 + minutes + seconds/60.
A full match of that anchored pattern is exactly: one or two colons, the
first field a nonempty digit run, the later fields digit runs of length
1-2. -/
def colonMatch (l : List Char) : Option Rat :=
  match splitColon l with
  | [p0, p1] =>
    if !p0.isEmpty && p0.all isDigitCh && isD12 p1 then
      some (qadd (qmulN (mkRat (digitsVal p0) 1) 60) (mkRat (digitsVal p1) 1))
    else none
  | [p0, p1, p2] =>
    if !p0.isEmpty && p0.all isDigitCh && isD12 p1 && isD12 p2 then
      some (qadd (qadd (qmulN (mkRat (digitsVal p0) 1) 60) (mkRat (digitsVal p1) 1))
        (qdivN (mkRat (digitsVal p2) 1) 60))
    else none
  | _ => none

/-- One optional ISO group `(?:(\d+(?:\.\d+)?)X)?`: if a number followed by
the unit letter is present here, consume it, else leave the input alone.
(Taking the group greedily is exact: when the group matches, no overall
match can avoid it, because the following groups and the `$` anchor would
have to match at the same digit.) -/
def optGroup (u : Char) (l : List Char) : Rat × List Char :=
  match numToken l with
  | some (v, r) =>
    match r with
    | c :: r2 => if c = u then (v, r2) else (0, l)
    | [] => (0, l)
  | none => (0, l)

/-- The ISO-style grammar (lines 31-39 of the source):
`^pt(?:(\d+(?:\.\d+)?)h)?(?:(\d+(?:\.\d+)?)m)?(?:(\d+(?:\.\d+)?)s)?$`,
yielding hours*60 + minutes + seconds/60. -/
def isoMatch (l : List Char) : Option Rat :=
  match l with
  | 'p' :: 't' :: rest =>
    let ph := optGroup 'h' rest
    let pm := optGroup 'm' ph.2
    let ps := optGroup 's' pm.2
    if ps.2.isEmpty then some (qadd (qadd (qmulN ph.1 60) pm.1) (qdivN ps.1 60)) else none
  | _ => none

/-- The character replacements of lines 28-30 of the source: commas become
spaces, en dash and em dash become the ASCII hyphen. -/
def replaceChars (l : List Char) : List Char :=
  l.map fun c =>
    if c = ',' then ' '
    else if c = '–' then '-'
    else if c = '—' then '-'
    else c

/-- Python's built-in `round` on our exact rational model of floats:
round half to even (banker's rounding).  Written on the numerator and
denominator so that it reduces inside the kernel; `f = q.num / q.den` is
`⌊q⌋` (integer division on `Int` is floor division for a positive
divisor), and `r2 = 2 * q.den * (q - ⌊q⌋)` is compared against `q.den` to
compare the fractional part against `1/2`.  The floor-level
characterization is proved in `roundHalfEven_eq` below. -/
def roundHalfEven (q : Rat) : Int :=
  let f : Int := q.num / q.den
  let r2 : Int := 2 * (q.num - f * q.den)
  if r2 < (q.den : Int) then f
  else if (q.den : Int) < r2 then f + 1
  else if f % 2 = 0 then f else f + 1

/-- The input contract of both normalizers: `None`, a number (int or float,
modelled exactly as a rational), or a string. -/
inductive Value where
  | none : Value
  | num : Rat → Value
  | text : String → Value

/-- The string pipeline of `parse_time_to_minutes` after the numeric and
`None` cases (lines 13-63 of `src/utils.py`). -/
def timeText (l0 : List Char) : Int :=
  let s := asciiLower (pyStrip l0)
  if s.isEmpty then 0
  else if pyIsdigit s then (digitsVal s : Int)
  else
    match colonMatch s with
    | some t => roundHalfEven t
    | none =>
      let s2 := replaceChars s
      match isoMatch s2 with
      | some t => roundHalfEven t
      | none => roundHalfEven (afterBare s2)

/-- `parse_time_to_minutes` of `src/utils.py` (lines 5-63). -/
def parse_time_to_minutes : Value → Int
  | Value.none => 0
  | Value.num q => roundHalfEven q
  | Value.text s => timeText s.data

/-- The range pattern `(\d+)\s*[-–—to]\s*(\d+)` of line 79 of the source,
matched at the head of the list.  Note that `[-–—to]` is a character
class: exactly one character drawn from hyphen, en dash, em dash, `t`, `o`.
Returns `int(group(1))`, the first number. -/
def rangeMatchAt (l : List Char) : Option Nat :=
  let p := takeDigits l
  if p.1.isEmpty then none
  else
    match skipWs p.2 with
    | c :: r2 =>
      if c = '-' || c = '–' || c = '—' || c = 't' || c = 'o' then
        let q := takeDigits (skipWs r2)
        if q.1.isEmpty then none else some (digitsVal p.1)
      else none
    | [] => none

/-- `re.search` with the range pattern: first position where it matches. -/
def rangeSearch : List Char → Option Nat
  | [] => none
  | c :: rest =>
    match rangeMatchAt (c :: rest) with
    | some a => some a
    | none => rangeSearch rest

/-- The string pipeline of `parse_servings_to_int` (lines 74-85). -/
def servText (l0 : List Char) : Int :=
  let s := asciiLower (pyStrip l0)
  if s.isEmpty then 0
  else if pyIsdigit s then (digitsVal s : Int)
  else
    match rangeSearch s with
    | some a => (a : Int)
    | none =>
      match firstNumber s with
      | some v => roundHalfEven v
      | none => 0

/-- `parse_servings_to_int` of `src/utils.py` (lines 66-85). -/
def parse_servings_to_int : Value → Int
  | Value.none => 0
  | Value.num q => roundHalfEven q
  | Value.text s => servText s.data

/-- Substring test (Python's `needle in haystack`). -/
def containsSub (hay needle : List Char) : Bool :=
  pfx needle hay ||
    match hay with
    | [] => false
    | _ :: t => containsSub t needle

/-- `get_platform` of `src/utils.py` (lines 88-97). -/
def get_platform (url : String) : String :=
  let u := asciiLower url.data
  if containsSub u ("tiktok.com").data then "tiktok"
  else if containsSub u ("youtube.com").data || containsSub u ("youtu.be").data then
    "youtube"
  else "website"

/-- A character that can occur inside the consumed span of a zero-valued
match: a zero digit, a decimal point, whitespace, or a letter. -/
def spanCharP (c : Char) : Prop :=
  (isDigitCh c = true ∧ digVal c = 0) ∨ c = '.' ∨ isSpaceCh c = true ∨ isAlphaCh c = true

/-- The word lists of the source's unit patterns are nonempty words made of
letters. -/
def okWords (W : List (List Char)) : Prop :=
  ∀ w ∈ W, w ≠ [] ∧ ∀ c ∈ w, isAlphaCh c = true

/-- A matcher that consumes at least one character and leaves a suffix. -/
def Shrinks (f : List Char → Option (Rat × List Char)) : Prop :=
  ∀ l v r, f l = some (v, r) → ∃ sp, sp ≠ [] ∧ l = sp ++ r

/-- A matcher whose captured values are all nonnegative. -/
def ValNonneg (f : List Char → Option (Rat × List Char)) : Prop :=
  ∀ l v r, f l = some (v, r) → 0 ≤ v

/-- The key structural property behind claim C4: inside the span of a
zero-valued match, every match (of any of the matchers) is zero-valued. -/
def ZeroSpanP (f : List Char → Option (Rat × List Char)) : Prop :=
  ∀ l r, f l = some (0, r) → ∀ (k : Nat) (v2 : Rat) (r2 : List Char), 0 < k →
    r.length < (l.drop k).length → f (l.drop k) = some (v2, r2) → v2 = 0

/-- Decimal digit character for a value 0-9. -/
def digitChar10 (d : Nat) : Char :=
  if d = 0 then '0' else if d = 1 then '1' else if d = 2 then '2' else if d = 3 then '3'
  else if d = 4 then '4' else if d = 5 then '5' else if d = 6 then '6' else if d = 7 then '7'
  else if d = 8 then '8' else '9'

/-- Decimal digits of a natural number, most significant first (fuel-driven;
fuel `n+1` always suffices). -/
def natDigitsAux : Nat → Nat → List Char
  | 0, _ => []
  | fuel + 1, n =>
    if n < 10 then [digitChar10 n]
    else natDigitsAux fuel (n / 10) ++ [digitChar10 (n % 10)]

/-- Decimal digits of a natural number. -/
def natDigits (n : Nat) : List Char := natDigitsAux (n + 1) n

/-- Python's `str` on an int: decimal digits, with a leading minus sign for
negative values. -/
def pyStrInt (n : Int) : String :=
  if n < 0 then String.mk ('-' :: natDigits (-n).toNat) else String.mk (natDigits n.toNat)

/-! ### Bridge lemmas: the kernel-reducible arithmetic agrees with `ℚ` -/

theorem qadd_eq (a b : Rat) : qadd a b = a + b := (Rat.add_def' a b).symm

theorem qmulN_eq (a : Rat) (n : Nat) : qmulN a n = a * n := by
  have hd : ((a.den : ℚ)) ≠ 0 := Nat.cast_ne_zero.mpr a.den_nz
  rw [qmulN, Rat.mkRat_eq_div]
  push_cast
  rw [mul_div_right_comm, Rat.num_div_den]

theorem qdivN_eq (a : Rat) (n : Nat) : qdivN a n = a / n := by
  rw [qdivN, Rat.mkRat_eq_div]
  push_cast
  rw [← div_div, Rat.num_div_den]

theorem mkRat_natCast (m : Nat) : mkRat (m : Int) 1 = (m : Rat) := by
  rw [Rat.mkRat_one]
  norm_cast

theorem mkRat_nonneg {n : Int} (hn : 0 ≤ n) (d : Nat) : 0 ≤ mkRat n d := by
  rw [Rat.mkRat_eq_div]
  positivity

/-- The floor-level reading of `roundHalfEven`: round to the nearest
integer, ties to the even one. -/
theorem roundHalfEven_eq (q : Rat) :
    roundHalfEven q =
      if q - ⌊q⌋ < 1 / 2 then ⌊q⌋
      else if 1 / 2 < q - ⌊q⌋ then ⌊q⌋ + 1
      else if ⌊q⌋ % 2 = 0 then ⌊q⌋ else ⌊q⌋ + 1 := by
  have hf : (q.num / q.den : Int) = ⌊q⌋ := by
    conv_rhs => rw [← Rat.num_div_den q]
    rw [Rat.floor_intCast_div_natCast]
  have hd : (0 : ℚ) < (q.den : ℚ) := by
    exact_mod_cast Nat.pos_of_ne_zero q.den_nz
  have hq : (q.num : ℚ) = q * (q.den : ℚ) := by
    have h := Rat.num_div_den q
    rw [div_eq_iff (ne_of_gt hd)] at h
    exact h
  have hlt1 : (2 * (q.num - ⌊q⌋ * q.den) < (q.den : Int)) ↔ q - ⌊q⌋ < 1 / 2 := by
    rw [← @Int.cast_lt ℚ]
    push_cast
    rw [hq]
    constructor <;> intro h <;> nlinarith
  have hlt2 : ((q.den : Int) < 2 * (q.num - ⌊q⌋ * q.den)) ↔ 1 / 2 < q - ⌊q⌋ := by
    rw [← @Int.cast_lt ℚ]
    push_cast
    rw [hq]
    constructor <;> intro h <;> nlinarith
  rw [roundHalfEven]
  simp only [hf, hlt1, hlt2]

theorem roundHalfEven_nonneg {q : Rat} (hq : 0 ≤ q) : 0 ≤ roundHalfEven q := by
  have hnum : 0 ≤ q.num := Rat.num_nonneg.mpr hq
  have hden : (0 : Int) ≤ (q.den : Int) := Int.natCast_nonneg _
  have hf : 0 ≤ q.num / (q.den : Int) := Int.ediv_nonneg hnum hden
  rw [roundHalfEven]
  split
  · exact hf
  · split
    · omega
    · split
      · exact hf
      · omega

theorem roundHalfEven_intCast (n : Int) : roundHalfEven (n : Rat) = n := by
  rw [roundHalfEven_eq]
  rw [Int.floor_intCast]
  have h0 : ((n : Rat) - n) = 0 := sub_self _
  rw [h0]
  norm_num

/-! ### Character-class and digit-string facts -/

theorem isAlphaCh_not_digit {c : Char} (h : isAlphaCh c = true) : isDigitCh c = false := by
  simp only [isAlphaCh, Bool.or_eq_true, Bool.and_eq_true, decide_eq_true_eq] at h
  simp only [isDigitCh, Bool.and_eq_true, decide_eq_true_eq, Bool.and_eq_false_iff,
    decide_eq_false_iff_not]
  omega

theorem isAlphaCh_not_space {c : Char} (h : isAlphaCh c = true) : isSpaceCh c = false := by
  simp only [isAlphaCh, Bool.or_eq_true, Bool.and_eq_true, decide_eq_true_eq] at h
  simp only [isSpaceCh, Bool.or_eq_false_iff, Bool.and_eq_false_iff,
    decide_eq_false_iff_not]
  omega

theorem isSpaceCh_not_digit {c : Char} (h : isSpaceCh c = true) : isDigitCh c = false := by
  simp only [isSpaceCh, Bool.or_eq_true, Bool.and_eq_true, decide_eq_true_eq] at h
  simp only [isDigitCh, Bool.and_eq_false_iff, decide_eq_false_iff_not]
  omega

theorem isDigitCh_ne_of_not_word {c d : Char} (hw : isWordCh c = false)
    (hd : isWordCh d = true) : c ≠ d := by
  intro h
  rw [h, hd] at hw
  simp at hw

theorem takeDigits_recomb : ∀ l : List Char, (takeDigits l).1 ++ (takeDigits l).2 = l := by
  intro l
  induction l with
  | nil => rfl
  | cons c rest ih =>
    simp only [takeDigits]
    split
    · simpa using ih
    · rfl

theorem takeDigits_fst_digits : ∀ (l : List Char), ∀ c ∈ (takeDigits l).1, isDigitCh c = true := by
  intro l
  induction l with
  | nil => intro c hc; simp [takeDigits] at hc
  | cons a rest ih =>
    intro c hc
    simp only [takeDigits] at hc
    by_cases ha : isDigitCh a
    · rw [if_pos ha] at hc
      rcases List.mem_cons.mp hc with h | h
      · rw [h]; exact ha
      · exact ih c h
    · rw [if_neg ha] at hc
      simp at hc

theorem takeDigits_snd_head : ∀ (l : List Char), ∀ c, (takeDigits l).2.head? = some c →
    isDigitCh c = false := by
  intro l
  induction l with
  | nil => intro c hc; simp [takeDigits] at hc
  | cons a rest ih =>
    intro c hc
    simp only [takeDigits] at hc
    by_cases ha : isDigitCh a
    · rw [if_pos ha] at hc
      exact ih c hc
    · rw [if_neg ha] at hc
      simp only [List.head?_cons, Option.some.injEq] at hc
      rw [← hc]
      simpa using ha

theorem takeDigits_snd_ne_nil {l : List Char} (h : ∃ c ∈ l, isDigitCh c = false) :
    (takeDigits l).2 ≠ [] := by
  intro hnil
  obtain ⟨c, hc, hcd⟩ := h
  have hrec := takeDigits_recomb l
  rw [hnil, List.append_nil] at hrec
  have hmem : c ∈ (takeDigits l).1 := by rw [hrec]; exact hc
  have := takeDigits_fst_digits l c hmem
  rw [this] at hcd
  simp at hcd

theorem takeDigits_append_left {x y : List Char} (hx : (takeDigits x).2 ≠ []) :
    takeDigits (x ++ y) = ((takeDigits x).1, (takeDigits x).2 ++ y) := by
  induction x with
  | nil => simp [takeDigits] at hx
  | cons a rest ih =>
    by_cases ha : isDigitCh a
    · have hx2 : (takeDigits rest).2 ≠ [] := by
        simpa only [takeDigits, if_pos ha] using hx
      have hstep : (a :: rest) ++ y = a :: (rest ++ y) := rfl
      rw [hstep]
      show takeDigits (a :: (rest ++ y)) = _
      simp only [takeDigits, if_pos ha, ih hx2]
    · have hstep : (a :: rest) ++ y = a :: (rest ++ y) := rfl
      rw [hstep]
      simp only [takeDigits, if_neg ha]
      rfl

theorem digitsValA_eq_zero {a : Nat} {l : List Char} (h : digitsValA a l = 0) :
    a = 0 ∧ ∀ c ∈ l, digVal c = 0 := by
  induction l generalizing a with
  | nil => exact ⟨h, by simp⟩
  | cons c rest ih =>
    simp only [digitsValA, List.foldl_cons] at h
    obtain ⟨h1, h2⟩ := ih h
    refine ⟨by omega, ?_⟩
    intro d hd
    rcases List.mem_cons.mp hd with hh | hh
    · rw [hh]; omega
    · exact h2 d hh

theorem digitsValA_zero_of {l : List Char} (h : ∀ c ∈ l, digVal c = 0) :
    digitsValA 0 l = 0 := by
  induction l with
  | nil => rfl
  | cons c rest ih =>
    simp only [digitsValA, List.foldl_cons]
    have hc : digVal c = 0 := h c (by simp)
    rw [Nat.mul_zero, Nat.zero_add, hc]
    exact ih fun d hd => h d (List.mem_cons_of_mem _ hd)

theorem digitsVal_eq_zero {l : List Char} (h : digitsVal l = 0) : ∀ c ∈ l, digVal c = 0 :=
  (digitsValA_eq_zero h).2

theorem digitsVal_zero_of {l : List Char} (h : ∀ c ∈ l, digVal c = 0) : digitsVal l = 0 :=
  digitsValA_zero_of h

theorem pfx_decomp : ∀ {x y : List Char}, pfx x y = true → y = x ++ y.drop x.length := by
  intro x
  induction x with
  | nil => intro y _; simp
  | cons a tl ih =>
    intro y h
    cases y with
    | nil => simp [pfx] at h
    | cons b ytl =>
      simp only [pfx, Bool.and_eq_true, decide_eq_true_eq] at h
      obtain ⟨hab, htl⟩ := h
      simp only [List.length_cons, List.drop_succ_cons, List.cons_append, hab]
      exact congrArg _ (ih htl)

theorem matchWord_some : ∀ {W : List (List Char)} {l r : List Char},
    matchWord W l = some r →
    ∃ w ∈ W, pfx w l = true ∧ r = l.drop w.length ∧ boundaryOk r = true := by
  intro W
  induction W with
  | nil => intro l r h; simp [matchWord] at h
  | cons w ws ih =>
    intro l r h
    simp only [matchWord] at h
    split at h
    · rename_i hcond
      simp only [Bool.and_eq_true] at hcond
      obtain ⟨h1, h2⟩ := hcond
      refine ⟨w, by simp, h1, ?_, ?_⟩
      · exact (Option.some.injEq _ _ ▸ h).symm
      · have : r = l.drop w.length := (Option.some.injEq _ _ ▸ h).symm
        rw [this]; exact h2
    · obtain ⟨w2, hw2, rest⟩ := ih h
      exact ⟨w2, List.mem_cons_of_mem _ hw2, rest⟩

theorem skipWs_decomp (l : List Char) :
    ∃ ws, l = ws ++ skipWs l ∧ ∀ c ∈ ws, isSpaceCh c = true := by
  induction l with
  | nil => exact ⟨[], rfl, by simp⟩
  | cons c rest ih =>
    by_cases hc : isSpaceCh c
    · obtain ⟨ws, h1, h2⟩ := ih
      refine ⟨c :: ws, ?_, ?_⟩
      · simp only [skipWs, List.dropWhile_cons, if_pos hc]
        simpa [skipWs] using congrArg (c :: ·) h1
      · intro d hd
        rcases List.mem_cons.mp hd with hh | hh
        · rw [hh]; exact hc
        · exact h2 d hh
    · refine ⟨[], ?_, by simp⟩
      simp [skipWs, List.dropWhile_cons, if_neg hc]

theorem skipWs_of_head_not_space {c : Char} {rest : List Char} (h : isSpaceCh c = false) :
    skipWs (c :: rest) = c :: rest := by
  simp [skipWs, List.dropWhile_cons, h]

/-! ### Decomposition of the number token -/

theorem eq_cons_of_head? {l : List Char} {c : Char} (h : l.head? = some c) :
    l = c :: l.tail := by
  cases l with
  | nil => simp at h
  | cons a tl =>
    simp only [List.head?_cons, Option.some.injEq] at h
    rw [h]
    rfl

theorem numToken_decomp {l : List Char} {v : Rat} {r : List Char}
    (h : numToken l = some (v, r)) :
    ∃ tok, tok ≠ [] ∧ l = tok ++ r ∧ 0 ≤ v ∧
      (v = 0 → ∀ c ∈ tok, (isDigitCh c = true ∧ digVal c = 0) ∨ c = '.') := by
  unfold numToken at h
  by_cases hp : (takeDigits l).1.isEmpty
  · rw [if_pos hp] at h
    simp at h
  · rw [if_neg hp] at h
    have hne : (takeDigits l).1 ≠ [] := by
      simpa [List.isEmpty_iff] using hp
    have hrec := takeDigits_recomb l
    have hfst := takeDigits_fst_digits l
    have base : ∀ hv : mkRat (digitsVal (takeDigits l).1) 1 = v, r = (takeDigits l).2 →
        ∃ tok, tok ≠ [] ∧ l = tok ++ r ∧ 0 ≤ v ∧
          (v = 0 → ∀ c ∈ tok, (isDigitCh c = true ∧ digVal c = 0) ∨ c = '.') := by
      intro hv hr
      refine ⟨(takeDigits l).1, hne, by rw [hr, hrec], ?_, ?_⟩
      · rw [← hv]
        exact mkRat_nonneg (Int.natCast_nonneg _) 1
      · intro hv0 c hc
        rw [← hv, Rat.mkRat_eq_zero one_ne_zero] at hv0
        have hdv : digitsVal (takeDigits l).1 = 0 := by exact_mod_cast hv0
        exact Or.inl ⟨hfst c hc, digitsVal_eq_zero hdv c hc⟩
    by_cases hdot : (takeDigits l).2.head? = some '.'
    · rw [if_pos hdot] at h
      set r2 := (takeDigits l).2.tail with hr2def
      by_cases hq : (takeDigits r2).1.isEmpty
      · rw [if_pos hq] at h
        obtain ⟨hv, hr⟩ := Prod.mk.injEq _ _ _ _ ▸ Option.some.injEq _ _ ▸ h
        exact base hv hr.symm
      · rw [if_neg hq] at h
        obtain ⟨hv, hr⟩ := Prod.mk.injEq _ _ _ _ ▸ Option.some.injEq _ _ ▸ h
        have hrec2 := takeDigits_recomb r2
        have hfst2 := takeDigits_fst_digits r2
        have hsnd : (takeDigits l).2 = '.' :: r2 := eq_cons_of_head? hdot
        refine ⟨(takeDigits l).1 ++ '.' :: (takeDigits r2).1, by simp, ?_, ?_, ?_⟩
        · rw [← hr]
          calc l = (takeDigits l).1 ++ (takeDigits l).2 := hrec.symm
            _ = (takeDigits l).1 ++ ('.' :: r2) := by rw [hsnd]
            _ = (takeDigits l).1 ++ ('.' :: ((takeDigits r2).1 ++ (takeDigits r2).2)) := by
                rw [hrec2]
            _ = ((takeDigits l).1 ++ '.' :: (takeDigits r2).1) ++ (takeDigits r2).2 := by
                simp
        · rw [← hv]
          exact mkRat_nonneg (by positivity) _
        · intro hv0 c hc
          rw [← hv, Rat.mkRat_eq_zero (pow_ne_zero _ (by norm_num))] at hv0
          have hnat : digitsVal (takeDigits l).1 * 10 ^ (takeDigits r2).1.length +
              digitsVal (takeDigits r2).1 = 0 := by exact_mod_cast hv0
          have h10 : 0 < 10 ^ (takeDigits r2).1.length := by positivity
          have hz1 : digitsVal (takeDigits l).1 = 0 := by
            have hmul := Nat.eq_zero_of_add_eq_zero_right hnat
            rcases Nat.mul_eq_zero.mp hmul with hzz | hzz
            · exact hzz
            · omega
          have hz2 : digitsVal (takeDigits r2).1 = 0 :=
            Nat.eq_zero_of_add_eq_zero_left hnat
          rcases List.mem_append.mp hc with hc1 | hc2
          · exact Or.inl ⟨hfst c hc1, digitsVal_eq_zero hz1 c hc1⟩
          · rcases List.mem_cons.mp hc2 with hdotc | hc3
            · exact Or.inr hdotc
            · exact Or.inl ⟨hfst2 c hc3, digitsVal_eq_zero hz2 c hc3⟩
    · rw [if_neg hdot] at h
      obtain ⟨hv, hr⟩ := Prod.mk.injEq _ _ _ _ ▸ Option.some.injEq _ _ ▸ h
      exact base hv hr.symm

theorem numToken_nonneg {l : List Char} {v : Rat} {r : List Char}
    (h : numToken l = some (v, r)) : 0 ≤ v :=
  (numToken_decomp h).choose_spec.2.2.1

theorem mem_of_getLast? {l : List Char} {a : Char} (h : l.getLast? = some a) : a ∈ l := by
  have hmem : a ∈ l.getLast? := by rw [h]; rfl
  obtain ⟨hne, heq⟩ := List.mem_getLast?_eq_getLast hmem
  rw [heq]
  exact List.getLast_mem hne

theorem spanCharP_digit {c : Char} (h : spanCharP c) (hd : isDigitCh c = true) :
    digVal c = 0 := by
  rcases h with ⟨_, hz⟩ | hdot | hsp | hal
  · exact hz
  · rw [hdot] at hd
    simp [isDigitCh] at hd
  · rw [isSpaceCh_not_digit hsp] at hd
    simp at hd
  · rw [isAlphaCh_not_digit hal] at hd
    simp at hd

theorem numToken_zero_on_span {ss r0 : List Char} (hchars : ∀ c ∈ ss, spanCharP c)
    (hlast : ∃ a, ss.getLast? = some a ∧ isAlphaCh a = true) :
    numToken (ss ++ r0) = none ∨ ∃ r2, numToken (ss ++ r0) = some (0, r2) := by
  obtain ⟨a, ha1, ha2⟩ := hlast
  have hamem : a ∈ ss := mem_of_getLast? ha1
  have hB : (takeDigits ss).2 ≠ [] :=
    takeDigits_snd_ne_nil ⟨a, hamem, isAlphaCh_not_digit ha2⟩
  have htd := takeDigits_append_left (y := r0) hB
  have hssrec := takeDigits_recomb ss
  have hsubA : ∀ c ∈ (takeDigits ss).1, c ∈ ss := by
    intro c hc
    rw [← hssrec]
    exact List.mem_append_left _ hc
  have hzA : digitsVal (takeDigits ss).1 = 0 :=
    digitsVal_zero_of fun c hc =>
      spanCharP_digit (hchars c (hsubA c hc)) (takeDigits_fst_digits ss c hc)
  have hval0 : mkRat ((digitsVal (takeDigits ss).1 : Nat) : Int) 1 = 0 := by
    rw [hzA]
    norm_num
  unfold numToken
  dsimp only
  rw [htd]
  dsimp only
  by_cases hA : (takeDigits ss).1.isEmpty
  · rw [if_pos hA]
    exact Or.inl rfl
  · rw [if_neg hA]
    cases hBc : (takeDigits ss).2 with
    | nil => exact absurd hBc hB
    | cons b B2 =>
      simp only [List.cons_append, List.head?_cons, List.tail_cons]
      by_cases hbdot : b = '.'
      · rw [if_pos (by rw [hbdot])]
        have hB2ne : B2 ≠ [] := by
          intro hB2nil
          have hlb : ss.getLast? = some b := by
            rw [← hssrec, hBc, hB2nil]
            rw [List.getLast?_append_of_ne_nil _ (by simp)]
            rfl
          rw [ha1] at hlb
          have hab : a = b := by injection hlb
          rw [hab, hbdot] at ha2
          simp [isAlphaCh] at ha2
        have hlastB2 : B2.getLast? = some a := by
          have hss2 : ss = ((takeDigits ss).1 ++ [b]) ++ B2 := by
            conv_lhs => rw [← hssrec, hBc]
            simp
          rw [hss2, List.getLast?_append_of_ne_nil _ hB2ne] at ha1
          exact ha1
        have haB2 : a ∈ B2 := mem_of_getLast? hlastB2
        have hsubB2 : ∀ c ∈ B2, c ∈ ss := by
          intro c hc
          rw [← hssrec, hBc]
          exact List.mem_append_right _ (List.mem_cons_of_mem _ hc)
        have hB2d : (takeDigits B2).2 ≠ [] :=
          takeDigits_snd_ne_nil ⟨a, haB2, isAlphaCh_not_digit ha2⟩
        have htd2 := takeDigits_append_left (y := r0) hB2d
        rw [htd2]
        dsimp only
        have hzA2 : digitsVal (takeDigits B2).1 = 0 := by
          refine digitsVal_zero_of fun c hc => ?_
          have hcm : c ∈ B2 := by
            have hr2 := takeDigits_recomb B2
            rw [← hr2]
            exact List.mem_append_left _ hc
          exact spanCharP_digit (hchars c (hsubB2 c hcm)) (takeDigits_fst_digits B2 c hc)
        by_cases hA2 : (takeDigits B2).1.isEmpty
        · rw [if_pos hA2]
          exact Or.inr ⟨_, by rw [hval0]⟩
        · rw [if_neg hA2]
          have hval2 : mkRat ((digitsVal (takeDigits ss).1 : Int) * 10 ^ (takeDigits B2).1.length
              + (digitsVal (takeDigits B2).1 : Int)) (10 ^ (takeDigits B2).1.length) = 0 := by
            rw [hzA, hzA2]
            norm_num
          exact Or.inr ⟨_, by rw [hval2]⟩
      · rw [if_neg (by simp [hbdot])]
        exact Or.inr ⟨_, by rw [hval0]⟩

/-! ### Decomposition of the unit-word and compact matchers -/

theorem unitMatchAt_parts {aw : Bool} {W : List (List Char)} {l : List Char} {v : Rat}
    {r : List Char} (h : unitMatchAt aw W l = some (v, r)) :
    ∃ tok ws w r1, numToken l = some (v, r1) ∧ l = tok ++ r1 ∧ tok ≠ [] ∧
      r1 = ws ++ w ++ r ∧ (∀ c ∈ ws, isSpaceCh c = true) ∧ w ∈ W ∧
      boundaryOk r = true ∧ 0 ≤ v ∧
      (v = 0 → ∀ c ∈ tok, (isDigitCh c = true ∧ digVal c = 0) ∨ c = '.') := by
  unfold unitMatchAt at h
  cases hnt : numToken l with
  | none => rw [hnt] at h; simp at h
  | some p =>
    obtain ⟨v0, r1⟩ := p
    rw [hnt] at h
    dsimp only at h
    cases hmw : matchWord W (if aw then skipWs r1 else r1) with
    | none => rw [hmw] at h; simp at h
    | some rm =>
      rw [hmw] at h
      obtain ⟨hv, hrr⟩ := Prod.mk.injEq _ _ _ _ ▸ Option.some.injEq _ _ ▸ h
      subst hv
      subst hrr
      obtain ⟨w, hwW, hpfx, hreq, hbok⟩ := matchWord_some hmw
      obtain ⟨ws, hws1, hws2⟩ :
          ∃ ws, r1 = ws ++ (if aw then skipWs r1 else r1) ∧
            ∀ c ∈ ws, isSpaceCh c = true := by
        cases aw with
        | true =>
          obtain ⟨ws, hh1, hh2⟩ := skipWs_decomp r1
          exact ⟨ws, by simpa using hh1, hh2⟩
        | false => exact ⟨[], by simp, by simp⟩
      have hr2full : (if aw then skipWs r1 else r1) = w ++ rm := by
        have hx := pfx_decomp hpfx
        rw [← hreq] at hx
        exact hx
      obtain ⟨tok, htok, hltok, hv0n, hzero⟩ := numToken_decomp hnt
      refine ⟨tok, ws, w, r1, rfl, hltok, htok, ?_, hws2, hwW, hbok, hv0n, hzero⟩
      conv_lhs => rw [hws1, hr2full]
      simp

theorem unitMatchAt_shrinks (aw : Bool) (W : List (List Char)) :
    Shrinks (unitMatchAt aw W) := by
  intro l v r h
  obtain ⟨tok, ws, w, r1, _, hl, htok, hr1, _, _, _, _, _⟩ := unitMatchAt_parts h
  refine ⟨tok ++ ws ++ w, by simp [htok], ?_⟩
  rw [hl, hr1]
  simp

theorem unitMatchAt_nonneg (aw : Bool) (W : List (List Char)) :
    ValNonneg (unitMatchAt aw W) := by
  intro l v r h
  obtain ⟨_, _, _, _, _, _, _, _, _, _, _, hv, _⟩ := unitMatchAt_parts h
  exact hv

theorem hmMatchAt_decomp {l : List Char} {v : Rat} {r : List Char}
    (h : hmMatchAt l = some (v, r)) :
    ∃ sp, sp ≠ [] ∧ l = sp ++ r ∧ 0 ≤ v := by
  unfold hmMatchAt at h
  cases hnt : numToken l with
  | none => rw [hnt] at h; simp at h
  | some p =>
    obtain ⟨v1, r1⟩ := p
    rw [hnt] at h
    dsimp only at h
    by_cases hh : r1.head? = some 'h'
    · rw [if_pos hh] at h
      cases hnt2 : numToken (skipWs r1.tail) with
      | none => rw [hnt2] at h; simp at h
      | some p2 =>
        obtain ⟨v2, r3⟩ := p2
        rw [hnt2] at h
        dsimp only at h
        by_cases hm : r3.head? = some 'm'
        · rw [if_pos hm] at h
          obtain ⟨hv, hrr⟩ := Prod.mk.injEq _ _ _ _ ▸ Option.some.injEq _ _ ▸ h
          obtain ⟨tok1, htok1, hl1, hn1, _⟩ := numToken_decomp hnt
          obtain ⟨tok2, htok2, hl2, hn2, _⟩ := numToken_decomp hnt2
          obtain ⟨ws, hws1, _⟩ := skipWs_decomp r1.tail
          refine ⟨tok1 ++ 'h' :: (ws ++ tok2 ++ ['m']), by simp, ?_, ?_⟩
          · rw [← hrr]
            calc l = tok1 ++ r1 := hl1
              _ = tok1 ++ ('h' :: r1.tail) := by rw [← eq_cons_of_head? hh]
              _ = tok1 ++ ('h' :: (ws ++ skipWs r1.tail)) := by rw [← hws1]
              _ = tok1 ++ ('h' :: (ws ++ (tok2 ++ r3))) := by rw [← hl2]
              _ = tok1 ++ ('h' :: (ws ++ (tok2 ++ ('m' :: r3.tail)))) := by
                  rw [← eq_cons_of_head? hm]
              _ = (tok1 ++ 'h' :: (ws ++ tok2 ++ ['m'])) ++ r3.tail := by simp
          · rw [← hv, qadd_eq, qmulN_eq]
            push_cast
            nlinarith [hn1, hn2]
        · rw [if_neg hm] at h
          simp at h
    · rw [if_neg hh] at h
      simp at h

theorem hmMatchAt_shrinks : Shrinks hmMatchAt := by
  intro l v r h
  obtain ⟨sp, h1, h2, _⟩ := hmMatchAt_decomp h
  exact ⟨sp, h1, h2⟩

theorem hmMatchAt_nonneg : ValNonneg hmMatchAt := by
  intro l v r h
  exact (hmMatchAt_decomp h).choose_spec.2.2

/-! ### The finditer scan: fuel stability and step equations -/

theorem scanAux_nil (f : List Char → Option (Rat × List Char)) (n : Nat) :
    scanAux f n [] = 0 := by
  cases n <;> rfl

theorem scanAux_cons (f : List Char → Option (Rat × List Char)) (n : Nat) (c : Char)
    (rest : List Char) :
    scanAux f (n + 1) (c :: rest) =
      match f (c :: rest) with
      | some (v, r) => qadd v (scanAux f n r)
      | none => scanAux f n rest := rfl

theorem shrinks_length {f : List Char → Option (Rat × List Char)} (hf : Shrinks f)
    {l : List Char} {v : Rat} {r : List Char} (h : f l = some (v, r)) :
    r.length < l.length := by
  obtain ⟨sp, hsp, heq⟩ := hf _ _ _ h
  have := congrArg List.length heq
  rw [List.length_append] at this
  have hpos : 0 < sp.length := List.length_pos.mpr hsp
  omega

theorem scanAux_congr {f : List Char → Option (Rat × List Char)} (hf : Shrinks f) :
    ∀ (k n m : Nat) (l : List Char), l.length ≤ k → l.length ≤ n → l.length ≤ m →
      scanAux f n l = scanAux f m l := by
  intro k
  induction k with
  | zero =>
    intro n m l hk _ _
    have : l = [] := List.eq_nil_of_length_eq_zero (Nat.le_zero.mp hk)
    rw [this, scanAux_nil, scanAux_nil]
  | succ k ih =>
    intro n m l hk hn hm
    cases l with
    | nil => rw [scanAux_nil, scanAux_nil]
    | cons c rest =>
      simp only [List.length_cons] at hk hn hm
      obtain ⟨n2, rfl⟩ : ∃ n2, n = n2 + 1 := ⟨n - 1, by omega⟩
      obtain ⟨m2, rfl⟩ : ∃ m2, m = m2 + 1 := ⟨m - 1, by omega⟩
      rw [scanAux_cons, scanAux_cons]
      cases hfc : f (c :: rest) with
      | none =>
        exact ih n2 m2 rest (by omega) (by omega) (by omega)
      | some p =>
        obtain ⟨v, r⟩ := p
        have hrl : r.length < rest.length + 1 := shrinks_length hf hfc
        exact congrArg (qadd v) (ih n2 m2 r (by omega) (by omega) (by omega))

theorem scanF_nil (f : List Char → Option (Rat × List Char)) : scanF f [] = 0 := rfl

theorem scanF_cons_some {f : List Char → Option (Rat × List Char)} (hf : Shrinks f)
    {c : Char} {rest : List Char} {v : Rat} {r : List Char}
    (h : f (c :: rest) = some (v, r)) :
    scanF f (c :: rest) = qadd v (scanF f r) := by
  have hrl : r.length < rest.length + 1 := shrinks_length hf h
  unfold scanF
  rw [List.length_cons, scanAux_cons, h]
  exact congrArg (qadd v)
    (scanAux_congr hf rest.length rest.length r.length r (by omega) (by omega) (by omega))

theorem scanF_cons_none {f : List Char → Option (Rat × List Char)}
    {c : Char} {rest : List Char} (h : f (c :: rest) = none) :
    scanF f (c :: rest) = scanF f rest := by
  unfold scanF
  rw [List.length_cons, scanAux_cons, h]

theorem scanF_nonneg {f : List Char → Option (Rat × List Char)} (hf : Shrinks f)
    (hv : ValNonneg f) : ∀ l, 0 ≤ scanF f l
  | [] => by rw [scanF_nil]
  | c :: rest => by
    cases hfc : f (c :: rest) with
    | none =>
      rw [scanF_cons_none hfc]
      exact scanF_nonneg hf hv rest
    | some p =>
      obtain ⟨v, r⟩ := p
      rw [scanF_cons_some hf hfc, qadd_eq]
      have h1 := hv _ _ _ hfc
      have h2 : 0 ≤ scanF f r := scanF_nonneg hf hv r
      linarith
termination_by l => l.length
decreasing_by
  · simp only [List.length_cons]; omega
  · exact shrinks_length hf hfc

/-! ### Positive matches force a positive scan total -/

theorem scanF_ne_zero_extract {f : List Char → Option (Rat × List Char)}
    (hf : Shrinks f) : ∀ l, scanF f l ≠ 0 →
      ∃ k v r, f (l.drop k) = some (v, r) ∧ v ≠ 0
  | [], h => absurd (scanF_nil f) h
  | c :: rest, h => by
    cases hfc : f (c :: rest) with
    | none =>
      rw [scanF_cons_none hfc] at h
      obtain ⟨k, v, r, h1, h2⟩ := scanF_ne_zero_extract hf rest h
      exact ⟨k + 1, v, r, by rwa [List.drop_succ_cons], h2⟩
    | some p =>
      obtain ⟨v, r⟩ := p
      by_cases hv : v = 0
      · rw [scanF_cons_some hf hfc, hv, qadd_eq, zero_add] at h
        obtain ⟨k, v2, r2, h1, h2⟩ := scanF_ne_zero_extract hf r h
        obtain ⟨sp, hsp, heq⟩ := hf _ _ _ hfc
        have hrd : (c :: rest).drop sp.length = r := by
          rw [heq, List.drop_left]
        rw [← hrd, List.drop_drop] at h1
        exact ⟨sp.length + k, v2, r2, h1, h2⟩
      · exact ⟨0, v, r, by rwa [List.drop_zero], hv⟩
termination_by l => l.length
decreasing_by
  · simp only [List.length_cons]; omega
  · exact shrinks_length hf hfc

theorem scanF_pos_at {f : List Char → Option (Rat × List Char)}
    (hf : Shrinks f) (hv : ValNonneg f) (hz : ZeroSpanP f) :
    ∀ (l : List Char) (k : Nat) (v : Rat) (r : List Char),
      f (l.drop k) = some (v, r) → 0 < v → 0 < scanF f l
  | [], k, v, r, h, hvpos => by
    rw [List.drop_nil] at h
    obtain ⟨sp, hsp, heq⟩ := hf _ _ _ h
    cases sp with
    | nil => exact absurd rfl hsp
    | cons a b => simp at heq
  | c :: rest, k, v, r, h, hvpos => by
    cases k with
    | zero =>
      rw [List.drop_zero] at h
      rw [scanF_cons_some hf h, qadd_eq]
      have hnn := scanF_nonneg hf hv r
      linarith
    | succ k2 =>
      rw [List.drop_succ_cons] at h
      cases hfc : f (c :: rest) with
      | none =>
        rw [scanF_cons_none hfc]
        exact scanF_pos_at hf hv hz rest k2 v r h hvpos
      | some p =>
        obtain ⟨v0, r0⟩ := p
        rw [scanF_cons_some hf hfc, qadd_eq]
        by_cases hv0 : v0 = 0
        · obtain ⟨sp, hsp, heq⟩ := hf _ _ _ hfc
          have hrd : (c :: rest).drop sp.length = r0 := by
            rw [heq, List.drop_left]
          by_cases hlen : (rest.drop k2).length ≤ r0.length
          · have hsplen : 0 < sp.length := List.length_pos.mpr hsp
            have hlrest : (rest.drop k2).length = rest.length - k2 := List.length_drop _ _
            have hlr0 : r0.length < rest.length + 1 := shrinks_length hf hfc
            have hr0len : r0.length = rest.length + 1 - sp.length := by
              have := congrArg List.length heq
              simp only [List.length_cons, List.length_append] at this
              omega
            have htne : rest.drop k2 ≠ [] := by
              intro hnil
              rw [hnil] at h
              obtain ⟨sp2, hsp2, heq2⟩ := hf _ _ _ h
              cases sp2 with
              | nil => exact hsp2 rfl
              | cons a b => simp at heq2
            have hk2lt : k2 < rest.length := by
              by_contra hge
              push_neg at hge
              exact htne (List.drop_eq_nil_of_le hge)
            have hsple : sp.length ≤ k2 + 1 := by omega
            have hdrop2 : r0.drop (k2 + 1 - sp.length) = rest.drop k2 := by
              rw [← hrd, List.drop_drop]
              have heqk : sp.length + (k2 + 1 - sp.length) = k2 + 1 := by omega
              rw [heqk]
              exact List.drop_succ_cons
            have hrec : 0 < scanF f r0 := by
              refine scanF_pos_at hf hv hz r0 (k2 + 1 - sp.length) v r ?_ hvpos
              rw [hdrop2]
              exact h
            have hnn := hv _ _ _ hfc
            linarith
          · push_neg at hlen
            rw [hv0] at hfc
            have := hz (c :: rest) r0 hfc (k2 + 1) v r (Nat.succ_pos _)
              (by rwa [List.drop_succ_cons]) (by rwa [List.drop_succ_cons])
            exact absurd this (ne_of_gt hvpos)
        · have hpos0 : 0 < v0 := lt_of_le_of_ne (hv _ _ _ hfc) (Ne.symm hv0)
          have hnn := scanF_nonneg hf hv r0
          linarith
termination_by l => l.length
decreasing_by
  · simp only [List.length_cons]; omega
  · exact shrinks_length hf hfc

/-- If every match of `g` is also a match of `f` (same value, same rest),
a zero `f`-total forces a zero `g`-total.  This is what makes the compact
`<num>h` / `<num>m` loops contribute nothing whenever they run. -/
theorem scan_zero_transfer {f g : List Char → Option (Rat × List Char)}
    (hf : Shrinks f) (hfv : ValNonneg f) (hfz : ZeroSpanP f)
    (hg : Shrinks g) (hgv : ValNonneg g)
    (hconv : ∀ l v r, g l = some (v, r) → f l = some (v, r))
    (l : List Char) (h : scanF f l = 0) : scanF g l = 0 := by
  by_contra hne
  obtain ⟨k, v, r, h1, h2⟩ := scanF_ne_zero_extract hg l hne
  have hvpos : 0 < v := lt_of_le_of_ne (hgv _ _ _ h1) (Ne.symm h2)
  have := scanF_pos_at hf hfv hfz l k v r (hconv _ _ _ h1) hvpos
  rw [h] at this
  exact lt_irrefl 0 this

/-! ### The zero-span property of the unit-word matchers -/

theorem unitMatchAt_zero_span {aw : Bool} {W : List (List Char)} {l r : List Char}
    (hW : okWords W) (h : unitMatchAt aw W l = some (0, r)) :
    ∃ sp, l = sp ++ r ∧ sp ≠ [] ∧ (∀ c ∈ sp, spanCharP c) ∧
      ∃ a, sp.getLast? = some a ∧ isAlphaCh a = true := by
  obtain ⟨tok, ws, w, r1, hnt, hl, htok, hr1, hws, hwW, hbok, hnn, hzero⟩ := unitMatchAt_parts h
  obtain ⟨hwne, hwal⟩ := hW w hwW
  refine ⟨tok ++ ws ++ w, ?_, by simp [htok], ?_, ?_⟩
  · rw [hl, hr1]
    simp
  · intro c hc
    rcases List.mem_append.mp hc with hcc | hcw
    · rcases List.mem_append.mp hcc with hct | hcs
      · rcases hzero rfl c hct with ⟨hd, hz⟩ | hdot
        · exact Or.inl ⟨hd, hz⟩
        · exact Or.inr (Or.inl hdot)
      · exact Or.inr (Or.inr (Or.inl (hws c hcs)))
    · exact Or.inr (Or.inr (Or.inr (hwal c hcw)))
  · refine ⟨w.getLast hwne, ?_, hwal _ (List.getLast_mem hwne)⟩
    rw [List.getLast?_append_of_ne_nil _ hwne]
    exact List.getLast?_eq_getLast_of_ne_nil hwne

theorem unitMatchAt_numToken {aw : Bool} {W : List (List Char)} {l : List Char} {v : Rat}
    {r : List Char} (h : unitMatchAt aw W l = some (v, r)) :
    ∃ r1, numToken l = some (v, r1) := by
  obtain ⟨_, _, _, r1, hnt, _⟩ := unitMatchAt_parts h
  exact ⟨r1, hnt⟩

theorem unitMatchAt_zeroSpanP (aw : Bool) {W : List (List Char)} (hW : okWords W) :
    ZeroSpanP (unitMatchAt aw W) := by
  intro l r h k v2 r2 hk hlen hmatch
  obtain ⟨sp, hl, hspne, hchars, hlast⟩ := unitMatchAt_zero_span hW h
  have hllen : l.length = sp.length + r.length := by
    rw [hl, List.length_append]
  have hdlen : (l.drop k).length = l.length - k := List.length_drop _ _
  have hklt : k < sp.length := by omega
  have hdrop : l.drop k = sp.drop k ++ r := by
    rw [hl, List.drop_append_of_le_length (by omega)]
  have hsslen : (sp.drop k).length = sp.length - k := List.length_drop _ _
  have hssne : sp.drop k ≠ [] := by
    intro hnil
    rw [hnil] at hsslen
    simp at hsslen
    omega
  have hsschars : ∀ c ∈ sp.drop k, spanCharP c := fun c hc =>
    hchars c (List.mem_of_mem_drop hc)
  have hsslast : ∃ a, (sp.drop k).getLast? = some a ∧ isAlphaCh a = true := by
    obtain ⟨a, ha1, ha2⟩ := hlast
    refine ⟨a, ?_, ha2⟩
    calc (sp.drop k).getLast? = (sp.take k ++ sp.drop k).getLast? :=
          (List.getLast?_append_of_ne_nil _ hssne).symm
      _ = sp.getLast? := by rw [List.take_append_drop]
      _ = some a := ha1
  obtain ⟨r1x, hnt2⟩ := unitMatchAt_numToken hmatch
  rw [hdrop] at hnt2
  rcases numToken_zero_on_span hsschars hsslast with hnone | ⟨r2y, hsome⟩
  · rw [hnone] at hnt2
    exact absurd hnt2 (by simp)
  · rw [hsome] at hnt2
    have := Option.some.injEq _ _ ▸ hnt2
    exact (Prod.mk.injEq _ _ _ _ ▸ this).1.symm

/-! ### The compact matchers refine the unit-word matchers -/

theorem matchWord_single {w l rm : List Char} (h : matchWord [w] l = some rm) :
    pfx w l = true ∧ boundaryOk (l.drop w.length) = true ∧ rm = l.drop w.length := by
  simp only [matchWord] at h
  by_cases hcond : pfx w l && boundaryOk (l.drop w.length)
  · rw [if_pos hcond] at h
    simp only [Bool.and_eq_true] at hcond
    exact ⟨hcond.1, hcond.2, ((Option.some.injEq _ _) ▸ h).symm⟩
  · rw [if_neg hcond] at h
    simp at h

theorem matchWord_hourWords {tl : List Char} (hb : boundaryOk tl = true) :
    matchWord hourWords ('h' :: tl) = some tl := by
  cases tl with
  | nil => decide
  | cons d tl2 =>
    have hdw : isWordCh d = false := by simpa [boundaryOk] using hb
    have hno : d ≠ 'o' := isDigitCh_ne_of_not_word hdw (by decide)
    have hnr : d ≠ 'r' := isDigitCh_ne_of_not_word hdw (by decide)
    simp [matchWord, hourWords, pfx, boundaryOk, hdw, Ne.symm hno, Ne.symm hnr]

theorem matchWord_minuteWords {tl : List Char} (hb : boundaryOk tl = true) :
    matchWord minuteWords ('m' :: tl) = some tl := by
  cases tl with
  | nil => decide
  | cons d tl2 =>
    have hdw : isWordCh d = false := by simpa [boundaryOk] using hb
    have hni : d ≠ 'i' := isDigitCh_ne_of_not_word hdw (by decide)
    simp [matchWord, minuteWords, pfx, boundaryOk, hdw, Ne.symm hni]

theorem compact_to_unit {l : List Char} {v : Rat} {r : List Char} {c0 : Char}
    {W : List (List Char)}
    (hsp : isSpaceCh c0 = false)
    (hmw : ∀ tl, boundaryOk tl = true → matchWord W (c0 :: tl) = some tl)
    (h : unitMatchAt false [[c0]] l = some (v, r)) :
    unitMatchAt true W l = some (v, r) := by
  unfold unitMatchAt at h ⊢
  cases hnt : numToken l with
  | none => rw [hnt] at h; simp at h
  | some p =>
    obtain ⟨v0, r1⟩ := p
    rw [hnt] at h
    dsimp only at h ⊢
    rw [if_neg (show ¬(false = true) by decide)] at h
    rw [if_pos (show true = true from rfl)]
    cases hm : matchWord [[c0]] r1 with
    | none => rw [hm] at h; simp at h
    | some rm =>
      obtain ⟨hp, hb, hrm⟩ := matchWord_single hm
      have hr1 : r1 = c0 :: r1.drop 1 := by
        have hd := pfx_decomp hp
        simpa using hd
      have hb2 : boundaryOk (r1.drop 1) = true := by simpa using hb
      rw [hr1, skipWs_of_head_not_space hsp, hmw _ hb2]
      rw [hm] at h
      simp at h hrm ⊢
      exact ⟨h.1, by rw [← hrm]; exact h.2⟩

/-! ### Assembly for the compact-fallback claim -/

theorem okWords_hour : okWords hourWords := by unfold okWords; decide

theorem okWords_minute : okWords minuteWords := by unfold okWords; decide

theorem okWords_second : okWords secondWords := by unfold okWords; decide

theorem hourM_shrinks : Shrinks hourM := unitMatchAt_shrinks true hourWords

theorem minuteM_shrinks : Shrinks minuteM := unitMatchAt_shrinks true minuteWords

theorem secondM_shrinks : Shrinks secondM := unitMatchAt_shrinks true secondWords

theorem chM_shrinks : Shrinks chM := unitMatchAt_shrinks false [['h']]

theorem cmM_shrinks : Shrinks cmM := unitMatchAt_shrinks false [['m']]

theorem hourM_nonnegV : ValNonneg hourM := unitMatchAt_nonneg true hourWords

theorem minuteM_nonnegV : ValNonneg minuteM := unitMatchAt_nonneg true minuteWords

theorem secondM_nonnegV : ValNonneg secondM := unitMatchAt_nonneg true secondWords

theorem chM_nonnegV : ValNonneg chM := unitMatchAt_nonneg false [['h']]

theorem cmM_nonnegV : ValNonneg cmM := unitMatchAt_nonneg false [['m']]

theorem hourM_zeroSpanP : ZeroSpanP hourM := unitMatchAt_zeroSpanP true okWords_hour

theorem minuteM_zeroSpanP : ZeroSpanP minuteM := unitMatchAt_zeroSpanP true okWords_minute

theorem chM_to_hourM {l : List Char} {v : Rat} {r : List Char} (h : chM l = some (v, r)) :
    hourM l = some (v, r) :=
  compact_to_unit (by decide) (fun _ hb => matchWord_hourWords hb) h

theorem cmM_to_minuteM {l : List Char} {v : Rat} {r : List Char} (h : cmM l = some (v, r)) :
    minuteM l = some (v, r) :=
  compact_to_unit (by decide) (fun _ hb => matchWord_minuteWords hb) h

theorem unitStage_zero {l : List Char} (h : unitStage l = 0) :
    scanF hourM l = 0 ∧ scanF minuteM l = 0 ∧ scanF secondM l = 0 := by
  unfold unitStage at h
  rw [qadd_eq, qadd_eq, qmulN_eq, qdivN_eq] at h
  push_cast at h
  have h1 : 0 ≤ scanF hourM l := scanF_nonneg hourM_shrinks hourM_nonnegV l
  have h2 : 0 ≤ scanF minuteM l := scanF_nonneg minuteM_shrinks minuteM_nonnegV l
  have h3 : 0 ≤ scanF secondM l := scanF_nonneg secondM_shrinks secondM_nonnegV l
  have h3d : 0 ≤ scanF secondM l / 60 := by positivity
  have h1m : 0 ≤ scanF hourM l * 60 := by positivity
  refine ⟨by linarith, by linarith, ?_⟩
  have : scanF secondM l / 60 = 0 := by linarith
  have h60 : (60 : ℚ) ≠ 0 := by norm_num
  field_simp at this
  exact this

theorem unitStage_nonneg (l : List Char) : 0 ≤ unitStage l := by
  unfold unitStage
  rw [qadd_eq, qadd_eq, qmulN_eq, qdivN_eq]
  have h1 : 0 ≤ scanF hourM l := scanF_nonneg hourM_shrinks hourM_nonnegV l
  have h2 : 0 ≤ scanF minuteM l := scanF_nonneg minuteM_shrinks minuteM_nonnegV l
  have h3 : 0 ≤ scanF secondM l := scanF_nonneg secondM_shrinks secondM_nonnegV l
  positivity

theorem compactStage_nonneg (l : List Char) : 0 ≤ compactStage l := by
  unfold compactStage
  rw [qadd_eq, qadd_eq, qmulN_eq]
  have h1 : 0 ≤ scanF hmMatchAt l := scanF_nonneg hmMatchAt_shrinks hmMatchAt_nonneg l
  have h2 : 0 ≤ scanF chM l := scanF_nonneg chM_shrinks chM_nonnegV l
  have h3 : 0 ≤ scanF cmM l := scanF_nonneg cmM_shrinks cmM_nonnegV l
  positivity

theorem afterCompact_of_ne {l : List Char} (h : unitStage l ≠ 0) :
    afterCompact l = unitStage l := by
  unfold afterCompact
  rw [if_neg h]

theorem afterCompact_of_zero {l : List Char} (h : unitStage l = 0) :
    scanF chM l = 0 ∧ scanF cmM l = 0 ∧ afterCompact l = scanF hmMatchAt l := by
  obtain ⟨hh, hm, _⟩ := unitStage_zero h
  have hch : scanF chM l = 0 :=
    scan_zero_transfer hourM_shrinks hourM_nonnegV hourM_zeroSpanP chM_shrinks chM_nonnegV
      (fun _ _ _ hx => chM_to_hourM hx) l hh
  have hcm : scanF cmM l = 0 :=
    scan_zero_transfer minuteM_shrinks minuteM_nonnegV minuteM_zeroSpanP cmM_shrinks cmM_nonnegV
      (fun _ _ _ hx => cmM_to_minuteM hx) l hm
  refine ⟨hch, hcm, ?_⟩
  unfold afterCompact
  rw [if_pos h, h, qadd_eq, zero_add]
  unfold compactStage
  rw [qadd_eq, qadd_eq, qmulN_eq, hch, hcm]
  push_cast
  ring

theorem afterCompact_nonneg (l : List Char) : 0 ≤ afterCompact l := by
  by_cases hu : unitStage l = 0
  · rw [(afterCompact_of_zero hu).2.2]
    exact scanF_nonneg hmMatchAt_shrinks hmMatchAt_nonneg l
  · rw [afterCompact_of_ne hu]
    exact unitStage_nonneg l

/-! ### Non-negativity of every stage of both pipelines -/

theorem firstNumber_nonneg : ∀ {l : List Char} {v : Rat}, firstNumber l = some v → 0 ≤ v := by
  intro l
  induction l with
  | nil => intro v h; simp [firstNumber] at h
  | cons c rest ih =>
    intro v h
    simp only [firstNumber] at h
    cases hnt : numToken (c :: rest) with
    | some p =>
      obtain ⟨v0, r⟩ := p
      rw [hnt] at h
      have hv0 := numToken_nonneg hnt
      have : v0 = v := by injection h
      rw [← this]
      exact hv0
    | none =>
      rw [hnt] at h
      exact ih h

theorem colonMatch_nonneg {l : List Char} {t : Rat} (h : colonMatch l = some t) : 0 ≤ t := by
  unfold colonMatch at h
  split at h
  · rename_i x p0 p1 heq
    split at h
    · have hval : qadd (qmulN (mkRat (digitsVal p0) 1) 60) (mkRat (digitsVal p1) 1) = t := by
        injection h
      rw [← hval, qadd_eq, qmulN_eq]
      have n1 := mkRat_nonneg (Int.natCast_nonneg (digitsVal p0)) 1
      have n2 := mkRat_nonneg (Int.natCast_nonneg (digitsVal p1)) 1
      positivity
    · simp at h
  · rename_i x p0 p1 p2 heq
    split at h
    · have hval : qadd (qadd (qmulN (mkRat (digitsVal p0) 1) 60) (mkRat (digitsVal p1) 1))
          (qdivN (mkRat (digitsVal p2) 1) 60) = t := by
        injection h
      rw [← hval, qadd_eq, qadd_eq, qmulN_eq, qdivN_eq]
      have n1 := mkRat_nonneg (Int.natCast_nonneg (digitsVal p0)) 1
      have n2 := mkRat_nonneg (Int.natCast_nonneg (digitsVal p1)) 1
      have n3 := mkRat_nonneg (Int.natCast_nonneg (digitsVal p2)) 1
      positivity
    · simp at h
  · simp at h

theorem optGroup_nonneg (u : Char) (l : List Char) : 0 ≤ (optGroup u l).1 := by
  unfold optGroup
  cases hnt : numToken l with
  | none => norm_num
  | some p =>
    obtain ⟨v, r⟩ := p
    have hv := numToken_nonneg hnt
    cases r with
    | nil => norm_num
    | cons c r2 =>
      dsimp only
      split
      · exact hv
      · norm_num

theorem isoMatch_nonneg {l : List Char} {t : Rat} (h : isoMatch l = some t) : 0 ≤ t := by
  unfold isoMatch at h
  split at h
  · rename_i rest
    dsimp only at h
    split at h
    · have hval : qadd (qadd (qmulN (optGroup 'h' rest).1 60)
          (optGroup 'm' (optGroup 'h' rest).2).1)
          (qdivN (optGroup 's' (optGroup 'm' (optGroup 'h' rest).2).2).1 60) = t := by
        injection h
      rw [← hval, qadd_eq, qadd_eq, qmulN_eq, qdivN_eq]
      have n1 := optGroup_nonneg 'h' rest
      have n2 := optGroup_nonneg 'm' (optGroup 'h' rest).2
      have n3 := optGroup_nonneg 's' (optGroup 'm' (optGroup 'h' rest).2).2
      positivity
    · simp at h
  · simp at h

theorem afterBare_nonneg (l : List Char) : 0 ≤ afterBare l := by
  unfold afterBare
  dsimp only
  by_cases hac : afterCompact l = 0
  · rw [if_pos hac]
    cases hfn : firstNumber l with
    | none => exact le_refl 0
    | some v => exact firstNumber_nonneg hfn
  · rw [if_neg hac]
    exact afterCompact_nonneg l

theorem timeText_nonneg (l : List Char) : 0 ≤ timeText l := by
  unfold timeText
  dsimp only
  by_cases h1 : (asciiLower (pyStrip l)).isEmpty
  · rw [if_pos h1]
  · rw [if_neg h1]
    by_cases h2 : pyIsdigit (asciiLower (pyStrip l))
    · rw [if_pos h2]
      exact Int.natCast_nonneg _
    · rw [if_neg h2]
      cases hc : colonMatch (asciiLower (pyStrip l)) with
      | some t => exact roundHalfEven_nonneg (colonMatch_nonneg hc)
      | none =>
        cases hi : isoMatch (replaceChars (asciiLower (pyStrip l))) with
        | some t => exact roundHalfEven_nonneg (isoMatch_nonneg hi)
        | none => exact roundHalfEven_nonneg (afterBare_nonneg _)

theorem servText_nonneg (l : List Char) : 0 ≤ servText l := by
  unfold servText
  dsimp only
  by_cases h1 : (asciiLower (pyStrip l)).isEmpty
  · rw [if_pos h1]
  · rw [if_neg h1]
    by_cases h2 : pyIsdigit (asciiLower (pyStrip l))
    · rw [if_pos h2]
      exact Int.natCast_nonneg _
    · rw [if_neg h2]
      cases hr : rangeSearch (asciiLower (pyStrip l)) with
      | some a => exact Int.natCast_nonneg _
      | none =>
        cases hfn : firstNumber (asciiLower (pyStrip l)) with
        | some v => exact roundHalfEven_nonneg (firstNumber_nonneg hfn)
        | none => exact le_refl 0

/-! ### Digit strings survive strip, lower, and isdigit; decimal round trip -/

theorem isDigitCh_not_space {c : Char} (h : isDigitCh c = true) : isSpaceCh c = false := by
  simp only [isDigitCh, Bool.and_eq_true, decide_eq_true_eq] at h
  simp only [isSpaceCh, Bool.or_eq_false_iff, Bool.and_eq_false_iff, decide_eq_false_iff_not]
  omega

theorem lowerCh_digit {c : Char} (h : isDigitCh c = true) : lowerCh c = c := by
  simp only [isDigitCh, Bool.and_eq_true, decide_eq_true_eq] at h
  unfold lowerCh
  rw [if_neg]
  simp only [Bool.and_eq_true, decide_eq_true_eq, not_and]
  omega

theorem lowerCh_colon : lowerCh ':' = ':' := by decide

theorem dropWhile_eq_self_of {p : Char → Bool} {l : List Char}
    (h : ∀ c ∈ l, p c = false) : l.dropWhile p = l := by
  cases l with
  | nil => rfl
  | cons c rest =>
    rw [List.dropWhile_cons, if_neg]
    simp [h c (by simp)]

theorem pyStrip_eq_self {l : List Char} (h : ∀ c ∈ l, isSpaceCh c = false) :
    pyStrip l = l := by
  unfold pyStrip
  rw [dropWhile_eq_self_of h]
  rw [dropWhile_eq_self_of (fun c hc => h c (List.mem_reverse.mp hc))]
  exact List.reverse_reverse l

theorem asciiLower_eq_self {l : List Char} (h : ∀ c ∈ l, lowerCh c = c) :
    asciiLower l = l := by
  unfold asciiLower
  induction l with
  | nil => rfl
  | cons c rest ih =>
    rw [List.map_cons, h c (by simp), ih fun d hd => h d (List.mem_cons_of_mem _ hd)]

theorem digitChar10_digit {d : Nat} (h : d < 10) :
    isDigitCh (digitChar10 d) = true ∧ digVal (digitChar10 d) = d := by
  interval_cases d <;> exact ⟨by decide, by decide⟩

theorem digitsVal_snoc (xs : List Char) (c : Char) :
    digitsVal (xs ++ [c]) = 10 * digitsVal xs + digVal c := by
  unfold digitsVal digitsValA
  rw [List.foldl_append]
  rfl

theorem natDigitsAux_spec : ∀ (fuel n : Nat), n < fuel →
    natDigitsAux fuel n ≠ [] ∧ (∀ c ∈ natDigitsAux fuel n, isDigitCh c = true) ∧
      digitsVal (natDigitsAux fuel n) = n := by
  intro fuel
  induction fuel with
  | zero => intro n h; omega
  | succ fuel ih =>
    intro n h
    by_cases h10 : n < 10
    · unfold natDigitsAux
      rw [if_pos h10]
      obtain ⟨hd, hv⟩ := digitChar10_digit h10
      refine ⟨by simp, ?_, ?_⟩
      · intro c hc
        rw [List.mem_singleton.mp hc]
        exact hd
      · show digitsVal [digitChar10 n] = n
        unfold digitsVal digitsValA
        simp [hv]
    · unfold natDigitsAux
      rw [if_neg h10]
      have hlt : n / 10 < fuel := by
        have := Nat.div_lt_self (by omega : 0 < n) (by omega : 1 < 10)
        omega
      obtain ⟨hne, hdig, hval⟩ := ih (n / 10) hlt
      obtain ⟨hd, hv⟩ := digitChar10_digit (Nat.mod_lt n (by omega))
      refine ⟨by simp, ?_, ?_⟩
      · intro c hc
        rcases List.mem_append.mp hc with hc1 | hc2
        · exact hdig c hc1
        · rw [List.mem_singleton.mp hc2]
          exact hd
      · rw [digitsVal_snoc, hval, hv]
        omega

theorem natDigits_spec (n : Nat) :
    natDigits n ≠ [] ∧ (∀ c ∈ natDigits n, isDigitCh c = true) ∧
      digitsVal (natDigits n) = n :=
  natDigitsAux_spec (n + 1) n (Nat.lt_succ_self n)

/-! ### The pure-digit branch of both pipelines -/

theorem pyIsdigit_ne_nil {l : List Char} (h : pyIsdigit l = true) : l.isEmpty = false := by
  simp only [pyIsdigit, Bool.and_eq_true, Bool.not_eq_true'] at h
  exact h.1

theorem timeText_digits {l : List Char} (h : pyIsdigit (asciiLower (pyStrip l)) = true) :
    timeText l = (digitsVal (asciiLower (pyStrip l)) : Int) := by
  unfold timeText
  dsimp only
  rw [if_neg (by rw [pyIsdigit_ne_nil h]; exact Bool.false_ne_true), if_pos h]

theorem servText_digits {l : List Char} (h : pyIsdigit (asciiLower (pyStrip l)) = true) :
    servText l = (digitsVal (asciiLower (pyStrip l)) : Int) := by
  unfold servText
  dsimp only
  rw [if_neg (by rw [pyIsdigit_ne_nil h]; exact Bool.false_ne_true), if_pos h]

theorem natDigits_clean (m : Nat) : asciiLower (pyStrip (natDigits m)) = natDigits m := by
  obtain ⟨hne, hdig, hval⟩ := natDigits_spec m
  rw [pyStrip_eq_self fun c hc => isDigitCh_not_space (hdig c hc)]
  exact asciiLower_eq_self fun c hc => lowerCh_digit (hdig c hc)

theorem timeText_natDigits (m : Nat) : timeText (natDigits m) = (m : Int) := by
  obtain ⟨hne, hdig, hval⟩ := natDigits_spec m
  have hclean := natDigits_clean m
  have hdigit : pyIsdigit (asciiLower (pyStrip (natDigits m))) = true := by
    rw [hclean]
    simp only [pyIsdigit, Bool.and_eq_true, Bool.not_eq_true', List.all_eq_true]
    refine ⟨by simpa [List.isEmpty_iff] using hne, fun c hc => hdig c hc⟩
  rw [timeText_digits hdigit, hclean, hval]

/-! ### The colon-clock grammar on explicitly built digit strings -/

theorem digit_ne_colon {c : Char} (h : isDigitCh c = true) : c ≠ ':' := by
  intro hc
  rw [hc] at h
  exact absurd h (by decide)

theorem splitColon_no_colon {a : List Char} (ha : ∀ c ∈ a, c ≠ ':') :
    splitColon a = [a] := by
  induction a with
  | nil => rfl
  | cons c rest ih =>
    unfold splitColon
    rw [if_neg (ha c (by simp))]
    rw [ih fun d hd => ha d (List.mem_cons_of_mem _ hd)]

theorem splitColon_append {a b : List Char} (ha : ∀ c ∈ a, c ≠ ':') :
    splitColon (a ++ ':' :: b) = a :: splitColon b := by
  induction a with
  | nil => rfl
  | cons c rest ih =>
    show splitColon (c :: (rest ++ ':' :: b)) = (c :: rest) :: splitColon b
    conv_lhs => unfold splitColon
    rw [if_neg (ha c (by simp))]
    rw [ih fun d hd => ha d (List.mem_cons_of_mem _ hd)]

theorem isD12_of {d : List Char} (hl : d.length = 1 ∨ d.length = 2)
    (hd : ∀ c ∈ d, isDigitCh c = true) : isD12 d = true := by
  unfold isD12
  rw [List.all_eq_true.mpr hd]
  simp [hl]

theorem colonMatch_two {d1 d2 : List Char} (h1 : d1 ≠ [])
    (hd1 : ∀ c ∈ d1, isDigitCh c = true)
    (hl2 : d2.length = 1 ∨ d2.length = 2) (hd2 : ∀ c ∈ d2, isDigitCh c = true) :
    colonMatch (d1 ++ ':' :: d2) =
      some (qadd (qmulN (mkRat (digitsVal d1) 1) 60) (mkRat (digitsVal d2) 1)) := by
  unfold colonMatch
  rw [splitColon_append fun c hc => digit_ne_colon (hd1 c hc)]
  rw [splitColon_no_colon fun c hc => digit_ne_colon (hd2 c hc)]
  dsimp only
  have he : d1.isEmpty = false := by simpa [List.isEmpty_iff] using h1
  have hcond : (!d1.isEmpty && d1.all isDigitCh && isD12 d2) = true := by
    rw [he, List.all_eq_true.mpr hd1, isD12_of hl2 hd2]
    rfl
  rw [if_pos hcond]

theorem colonMatch_three {d1 d2 d3 : List Char} (h1 : d1 ≠ [])
    (hd1 : ∀ c ∈ d1, isDigitCh c = true)
    (hl2 : d2.length = 1 ∨ d2.length = 2) (hd2 : ∀ c ∈ d2, isDigitCh c = true)
    (hl3 : d3.length = 1 ∨ d3.length = 2) (hd3 : ∀ c ∈ d3, isDigitCh c = true) :
    colonMatch (d1 ++ ':' :: (d2 ++ ':' :: d3)) =
      some (qadd (qadd (qmulN (mkRat (digitsVal d1) 1) 60) (mkRat (digitsVal d2) 1))
        (qdivN (mkRat (digitsVal d3) 1) 60)) := by
  unfold colonMatch
  rw [splitColon_append fun c hc => digit_ne_colon (hd1 c hc)]
  rw [splitColon_append fun c hc => digit_ne_colon (hd2 c hc)]
  rw [splitColon_no_colon fun c hc => digit_ne_colon (hd3 c hc)]
  dsimp only
  have he : d1.isEmpty = false := by simpa [List.isEmpty_iff] using h1
  have hcond : (!d1.isEmpty && d1.all isDigitCh && isD12 d2 && isD12 d3) = true := by
    rw [he, List.all_eq_true.mpr hd1, isD12_of hl2 hd2, isD12_of hl3 hd3]
    rfl
  rw [if_pos hcond]

theorem timeText_colon_case {l : List Char} {t : Rat}
    (hstrip : asciiLower (pyStrip l) = l) (hne : l.isEmpty = false)
    (hdig : pyIsdigit l = false) (hc : colonMatch l = some t) :
    timeText l = roundHalfEven t := by
  unfold timeText
  dsimp only
  rw [hstrip, if_neg (by rw [hne]; exact Bool.false_ne_true),
    if_neg (by rw [hdig]; exact Bool.false_ne_true), hc]

theorem pyIsdigit_false_of_colon {l : List Char} (h : (':' : Char) ∈ l) :
    pyIsdigit l = false := by
  unfold pyIsdigit
  have : l.all isDigitCh = false := by
    by_contra hx
    have hall : l.all isDigitCh = true := by
      cases hy : l.all isDigitCh
      · exact absurd hy hx
      · rfl
    have := List.all_eq_true.mp hall ':' h
    exact absurd this (by decide)
  rw [this, Bool.and_false]

theorem clean_of_digit_colon {l : List Char}
    (h : ∀ c ∈ l, isDigitCh c = true ∨ c = ':') : asciiLower (pyStrip l) = l := by
  have hs : ∀ c ∈ l, isSpaceCh c = false := by
    intro c hc
    rcases h c hc with hd | hcol
    · exact isDigitCh_not_space hd
    · rw [hcol]; decide
  rw [pyStrip_eq_self hs]
  refine asciiLower_eq_self fun c hc => ?_
  rcases h c hc with hd | hcol
  · exact lowerCh_digit hd
  · rw [hcol]; decide

/-! ### The range branch of the servings pipeline -/

theorem rangeSearch_ne_nil {l : List Char} {n : Nat} (h : rangeSearch l = some n) :
    l.isEmpty = false := by
  cases l with
  | nil => simp [rangeSearch] at h
  | cons c rest => rfl

theorem servText_range {l : List Char} {n : Nat}
    (hd : pyIsdigit (asciiLower (pyStrip l)) = false)
    (hr : rangeSearch (asciiLower (pyStrip l)) = some n) :
    servText l = (n : Int) := by
  unfold servText
  dsimp only
  rw [if_neg (by rw [rangeSearch_ne_nil hr]; exact Bool.false_ne_true),
    if_neg (by rw [hd]; exact Bool.false_ne_true), hr]

/-! ### The claims -/

/-- C2 (code bug, evaluation): the spec promises
`normalize_duration("1hr30min") == 90` and `normalize_duration("1h30m") == 90`,
and the code even contains compact patterns `<num>h<num>m` built precisely
for those strings — but the minute pattern `(\d+...)\s*(?:minutes?|mins?|min|m)\b`
already matches the trailing `30min`/`30m` (the hour pattern cannot match
`1hr`/`1h` because `\b` fails between `r`/`h` and the digit `3`), so the
unit-word stage returns 30, the compact fallback is never reached, and the
function returns 30 instead of the intended 90.  The other three spec
examples do hold. -/
theorem c2_code_bug_eval :
    parse_time_to_minutes (Value.text ("1h30m")) = 30 ∧
    parse_time_to_minutes (Value.text ("1hr30min")) = 30 ∧
    parse_time_to_minutes (Value.text ("1 hour 30 minutes")) = 90 ∧
    parse_time_to_minutes (Value.text ("90 min")) = 90 ∧
    parse_time_to_minutes (Value.text ("2 hrs")) = 120 := by
  decide

/-- C3 (counterexample): the range separator in the code is the character
class `[-–—to]` — one single character drawn from hyphen, en dash, em dash,
`t`, `o` — and not the literal word `to`.  On `"1, 4 to 6"` the range
pattern therefore does not match `4 to 6` (after `4 ` the single class
character `t` is followed by `o`, not by a digit), the first-number
fallback fires, and the function returns 1 where the claim demands the
lower bound 4 of the range. -/
theorem c3_counterexample :
    parse_servings_to_int (Value.text ("1, 4 to 6")) = 1 ∧ (1 : Int) ≠ 4 := by
  decide

/-- C3 (amended): the range pattern is `(\d+)\s*[-–—to]\s*(\d+)` with a
single separator character from the class hyphen/en dash/em dash/`t`/`o`;
whenever it matches somewhere in the (trimmed, lower-cased, non-pure-digit)
string, the first number of the match is returned.  `"4 to 6 servings"`
still yields 4 only because the first-number fallback returns the first
number of the whole string. -/
theorem c3_amended :
    (∀ (s : String) (n : Nat), pyIsdigit (asciiLower (pyStrip s.data)) = false →
      rangeSearch (asciiLower (pyStrip s.data)) = some n →
      parse_servings_to_int (Value.text s) = (n : Int)) ∧
    parse_servings_to_int (Value.text ("4-6")) = 4 ∧
    parse_servings_to_int (Value.text ("4 to 6 servings")) = 4 := by
  refine ⟨fun s n hd hr => servText_range hd hr, by decide, by decide⟩

/-- C3 (witness): the amended claim applied at a concrete input. -/
theorem c3_witness : parse_servings_to_int (Value.text ("4-6 people")) = 4 :=
  c3_amended.1 ("4-6 people") 4 (by decide) (by decide)

/-- C4 (confirmed): the compact no-space loops run only when the unit-word
stage produced exactly 0, and whenever they run, the standalone `<num>h\b`
and `<num>m\b` loops contribute exactly 0 (each of their matches would also
have been a match of the hour/minute unit pattern, and inside the span of a
zero-valued match only zero-valued matches exist), so the compact stage's
total is the `<num>h<num>m` sum alone: the three compact patterns never
contribute cumulatively to the same result. -/
theorem c4_compact_fallback (l : List Char) :
    (unitStage l ≠ 0 → afterCompact l = unitStage l) ∧
    (unitStage l = 0 →
      scanF chM l = 0 ∧ scanF cmM l = 0 ∧ afterCompact l = scanF hmMatchAt l) :=
  ⟨fun h => afterCompact_of_ne h, fun h => afterCompact_of_zero h⟩

/-- C4 (witness): on `"1h30mx"` the unit-word stage yields 0 (the `\b`
fails after `30m` before `x`), the compact `<num>h<num>m` pattern alone
produces the total; on `"90 min"` the unit-word stage is nonzero and the
compact stage is skipped. -/
theorem c4_witness :
    scanF chM (("1h30mx").data) = 0 ∧ scanF cmM (("1h30mx").data) = 0 ∧
    afterCompact (("1h30mx").data) = scanF hmMatchAt (("1h30mx").data) ∧
    afterCompact (("90 min").data) = unitStage (("90 min").data) :=
  ⟨((c4_compact_fallback _).2 (by decide)).1,
   ((c4_compact_fallback _).2 (by decide)).2.1,
   ((c4_compact_fallback _).2 (by decide)).2.2,
   (c4_compact_fallback _).1 (by decide)⟩

/-- C5 (counterexample): the colon-clock pattern is
`\d+:\d{1,2}(?::\d{1,2})?` — the *hours* field is `\d+`, not limited to 1-2
digits.  `"123:45"` has a three-digit first field, yet is handled by the
colon grammar and returns 123*60+45 = 7425; under the claim ("strings whose
fields exceed two digits are not handled by this grammar") the bare-number
fallback would instead have returned 123. -/
theorem c5_counterexample :
    parse_time_to_minutes (Value.text ("123:45")) = 7425 ∧ (7425 : Int) ≠ 123 := by
  decide

/-- C5 (amended): the colon grammar accepts an hours field of one *or more*
digits and minute/second fields of 1-2 digits, returning
hours*60 + minutes + seconds/60 rounded half-to-even; the stated examples
hold. -/
theorem c5_amended :
    (∀ d1 d2 : List Char, d1 ≠ [] → (∀ c ∈ d1, isDigitCh c = true) →
      (d2.length = 1 ∨ d2.length = 2) → (∀ c ∈ d2, isDigitCh c = true) →
      parse_time_to_minutes (Value.text (String.mk (d1 ++ ':' :: d2))) =
        roundHalfEven ((digitsVal d1 : Rat) * 60 + (digitsVal d2 : Rat))) ∧
    (∀ d1 d2 d3 : List Char, d1 ≠ [] → (∀ c ∈ d1, isDigitCh c = true) →
      (d2.length = 1 ∨ d2.length = 2) → (∀ c ∈ d2, isDigitCh c = true) →
      (d3.length = 1 ∨ d3.length = 2) → (∀ c ∈ d3, isDigitCh c = true) →
      parse_time_to_minutes (Value.text (String.mk (d1 ++ ':' :: (d2 ++ ':' :: d3)))) =
        roundHalfEven ((digitsVal d1 : Rat) * 60 + (digitsVal d2 : Rat)
          + (digitsVal d3 : Rat) / 60)) ∧
    parse_time_to_minutes (Value.text ("1:30")) = 90 ∧
    parse_time_to_minutes (Value.text ("1:30:00")) = 90 ∧
    parse_time_to_minutes (Value.text ("0:45")) = 45 ∧
    parse_time_to_minutes (Value.text ("123:45")) = 7425 := by
  have hmk : ∀ l : List Char, (String.mk l).data = l := fun _ => rfl
  refine ⟨?_, ?_, by decide, by decide, by decide, by decide⟩
  · intro d1 d2 h1 hd1 hl2 hd2
    show timeText (String.mk (d1 ++ ':' :: d2)).data = _
    rw [hmk]
    have hmem : ∀ c ∈ d1 ++ ':' :: d2, isDigitCh c = true ∨ c = ':' := by
      intro c hc
      rcases List.mem_append.mp hc with hc1 | hc2
      · exact Or.inl (hd1 c hc1)
      · rcases List.mem_cons.mp hc2 with hcc | hc3
        · exact Or.inr hcc
        · exact Or.inl (hd2 c hc3)
    have hne : (d1 ++ ':' :: d2).isEmpty = false := by
      cases hd : d1 ++ ':' :: d2 with
      | nil => exact absurd hd (by simp)
      | cons a b => rfl
    rw [timeText_colon_case (clean_of_digit_colon hmem) hne
      (pyIsdigit_false_of_colon (by simp)) (colonMatch_two h1 hd1 hl2 hd2)]
    rw [qadd_eq, qmulN_eq, mkRat_natCast, mkRat_natCast]
    norm_num
  · intro d1 d2 d3 h1 hd1 hl2 hd2 hl3 hd3
    show timeText (String.mk (d1 ++ ':' :: (d2 ++ ':' :: d3))).data = _
    rw [hmk]
    have hmem : ∀ c ∈ d1 ++ ':' :: (d2 ++ ':' :: d3), isDigitCh c = true ∨ c = ':' := by
      intro c hc
      rcases List.mem_append.mp hc with hc1 | hc2
      · exact Or.inl (hd1 c hc1)
      · rcases List.mem_cons.mp hc2 with hcc | hc3
        · exact Or.inr hcc
        · rcases List.mem_append.mp hc3 with hc4 | hc5
          · exact Or.inl (hd2 c hc4)
          · rcases List.mem_cons.mp hc5 with hcc2 | hc6
            · exact Or.inr hcc2
            · exact Or.inl (hd3 c hc6)
    have hne : (d1 ++ ':' :: (d2 ++ ':' :: d3)).isEmpty = false := by
      cases hd : d1 ++ ':' :: (d2 ++ ':' :: d3) with
      | nil => exact absurd hd (by simp)
      | cons a b => rfl
    rw [timeText_colon_case (clean_of_digit_colon hmem) hne
      (pyIsdigit_false_of_colon (by simp)) (colonMatch_three h1 hd1 hl2 hd2 hl3 hd3)]
    rw [qadd_eq, qadd_eq, qmulN_eq, qdivN_eq, mkRat_natCast, mkRat_natCast, mkRat_natCast]
    norm_num

/-- C5 (witness): the amended claim applied at `"007:5"` (three-digit,
zero-padded hours field). -/
theorem c5_witness :
    parse_time_to_minutes (Value.text (String.mk
      (['0', '0', '7'] ++ ':' :: ['5']))) =
      roundHalfEven ((digitsVal ['0', '0', '7'] : Rat) * 60 + (digitsVal ['5'] : Rat)) :=
  c5_amended.1 ['0', '0', '7'] ['5'] (by decide) (by decide) (by decide) (by decide)

/-- C7 (confirmed): after stripping and lower-casing, a string consisting
purely of ASCII digits is returned directly as its decimal value by both
normalizers, before any other grammar is attempted. -/
theorem c7_digit_priority :
    ∀ s : String, pyIsdigit (asciiLower (pyStrip s.data)) = true →
      parse_time_to_minutes (Value.text s) =
        (digitsVal (asciiLower (pyStrip s.data)) : Int) ∧
      parse_servings_to_int (Value.text s) =
        (digitsVal (asciiLower (pyStrip s.data)) : Int) :=
  fun _ h => ⟨timeText_digits h, servText_digits h⟩

/-- C7 (witness): the pure-digit branch applied at a padded digit string. -/
theorem c7_witness : parse_time_to_minutes (Value.text ("  42  ")) = 42 := by
  rw [(c7_digit_priority ("  42  ") (by decide)).1]
  decide

/-- C8 (counterexample): the stability property fails for negative numeric
inputs: `parse_time_to_minutes(-5) = -5`, but re-normalizing the string
`"-5"` yields 5 (the bare-number regex `(\d+(?:\.\d+)?)` skips the minus
sign and captures `5`), so re-normalizing the string form does not return
the same integer. -/
theorem c8_counterexample :
    parse_time_to_minutes (Value.num (-5)) = -5 ∧
    parse_time_to_minutes
      (Value.text (pyStrInt (parse_time_to_minutes (Value.num (-5))))) = 5 ∧
    ((5 : Int) ≠ -5) := by
  decide

/-- C8 (amended): whenever a first normalization yields a non-negative
integer (which is every case except negative numeric inputs),
re-normalizing its decimal string form returns the same integer: the
string of a non-negative integer is pure digits and hits the digit branch. -/
theorem c8_amended :
    ∀ x : Value, 0 ≤ parse_time_to_minutes x →
      parse_time_to_minutes (Value.text (pyStrInt (parse_time_to_minutes x))) =
        parse_time_to_minutes x := by
  intro x hx
  set n : Int := parse_time_to_minutes x with hn
  show timeText (pyStrInt n).data = n
  unfold pyStrInt
  rw [if_neg (not_lt.mpr hx)]
  rw [timeText_natDigits n.toNat]
  exact Int.toNat_of_nonneg hx

/-- C8 (witness): stability at `"1:30"` (normalizes to 90, and `"90"`
re-normalizes to 90). -/
theorem c8_witness :
    parse_time_to_minutes
      (Value.text (pyStrInt (parse_time_to_minutes (Value.text ("1:30"))))) =
      parse_time_to_minutes (Value.text ("1:30")) :=
  c8_amended (Value.text ("1:30")) (by decide)

/-- C9 (counterexample): the claim says a URL containing `youtube.com` is
classified as youtube; but the code checks `tiktok.com` first, so a URL
containing both substrings is classified as tiktok even though it contains
`youtube.com`. -/
theorem c9_counterexample :
    get_platform ("https://tiktok.com/?u=youtube.com") = "tiktok" ∧
    containsSub (asciiLower (("https://tiktok.com/?u=youtube.com").data))
      (("youtube.com").data) = true ∧
    (("tiktok" : String) ≠ "youtube") := by
  refine ⟨by decide, by decide, by decide⟩

/-- C9 (amended): classification order — a URL whose lower-cased form
contains `tiktok.com` is "tiktok"; otherwise, if it contains `youtube.com`
or `youtu.be` it is "youtube"; otherwise it is "website". -/
theorem c9_amended :
    ∀ url : String,
      (containsSub (asciiLower url.data) (("tiktok.com").data) = true →
        get_platform url = "tiktok") ∧
      (containsSub (asciiLower url.data) (("tiktok.com").data) = false →
        (containsSub (asciiLower url.data) (("youtube.com").data) = true ∨
         containsSub (asciiLower url.data) (("youtu.be").data) = true) →
        get_platform url = "youtube") ∧
      (containsSub (asciiLower url.data) (("tiktok.com").data) = false →
        containsSub (asciiLower url.data) (("youtube.com").data) = false →
        containsSub (asciiLower url.data) (("youtu.be").data) = false →
        get_platform url = "website") := by
  intro url
  refine ⟨fun h1 => ?_, fun h1 h2 => ?_, fun h1 h2 h3 => ?_⟩
  · unfold get_platform
    rw [if_pos h1]
  · unfold get_platform
    rw [if_neg (by rw [h1]; exact fun hc => by simp at hc),
      if_pos (Bool.or_eq_true _ _ ▸ (by rcases h2 with h | h <;> simp [h]))]
  · unfold get_platform
    rw [if_neg (by rw [h1]; exact fun hc => by simp at hc),
      if_neg (by rw [h2, h3]; exact fun hc => by simp at hc)]

/-- C9 (witness): the amended claim applied at concrete URLs. -/
theorem c9_witness :
    get_platform ("https://m.youtube.com/watch?v=1") = "youtube" ∧
    get_platform ("https://example.com/a") = "website" ∧
    get_platform ("https://www.tiktok.com/@x/video/2") = "tiktok" :=
  ⟨(c9_amended ("https://m.youtube.com/watch?v=1")).2.1 (by decide)
      (Or.inl (by decide)),
   (c9_amended ("https://example.com/a")).2.2 (by decide) (by decide) (by decide),
   (c9_amended ("https://www.tiktok.com/@x/video/2")).1 (by decide)⟩

/-- C10 (confirmed): the rounding rule at every `int(round(...))` return
site of both normalizers is round-half-to-even (banker's rounding): below a
half fraction the floor, above it the ceiling, and on an exact tie the even
neighbor.  Exact-tie inputs are exhibited at each rounding site of the two
functions — the numeric branch (utils.py line 12), colon branch (line 27),
ISO branch (line 39) and final unit-word/bare-number total (line 63) of the
duration normalizer, and the numeric branch (line 73) and first-number
fallback (line 84) of the servings normalizer — with ties rounding down to
an even integer and up to an even integer in every branch, including the
named examples 2.5 gives 2, 3.5 gives 4, and the servings strings "2.5"
gives 2, "3.5" gives 4.  Every value involved (5/2, 7/2, 150/60, 210/60)
is exactly representable as a binary64 float, so modelling the float values
of these inputs by exact rationals is faithful here. -/
theorem c10_rounding :
    (∀ q : Rat, roundHalfEven q =
      if q - ⌊q⌋ < 1 / 2 then ⌊q⌋
      else if 1 / 2 < q - ⌊q⌋ then ⌊q⌋ + 1
      else if ⌊q⌋ % 2 = 0 then ⌊q⌋ else ⌊q⌋ + 1) ∧
    parse_time_to_minutes (Value.num (mkRat 5 2)) = 2 ∧
    parse_time_to_minutes (Value.num (mkRat 7 2)) = 4 ∧
    parse_servings_to_int (Value.num (mkRat 5 2)) = 2 ∧
    parse_servings_to_int (Value.num (mkRat 7 2)) = 4 ∧
    parse_time_to_minutes (Value.text ("0:02:30")) = 2 ∧
    parse_time_to_minutes (Value.text ("0:03:30")) = 4 ∧
    parse_time_to_minutes (Value.text ("pt2.5m")) = 2 ∧
    parse_time_to_minutes (Value.text ("pt3.5m")) = 4 ∧
    parse_time_to_minutes (Value.text ("150 seconds")) = 2 ∧
    parse_time_to_minutes (Value.text ("210 seconds")) = 4 ∧
    parse_time_to_minutes (Value.text ("2.5")) = 2 ∧
    parse_time_to_minutes (Value.text ("3.5")) = 4 ∧
    parse_servings_to_int (Value.text ("2.5")) = 2 ∧
    parse_servings_to_int (Value.text ("3.5")) = 4 := by
  refine ⟨fun q => roundHalfEven_eq q,
    ?_, ?_, ?_, ?_, ?_, ?_, ?_, ?_, ?_, ?_, ?_, ?_, ?_, ?_⟩ <;> decide
